import Mathlib

/-!
A shallow embedding of the `brzozowski-regex` library (extended regular
expressions with Brzozowski derivatives, an approximately-similar canonical
form builder, and a derivative-based DFA construction), together with proofs
of the specification's claims about it.

The alphabet is instantiated with `Nat` (the source is generic over any
cloneable, hashable, totally ordered symbol type; the library's own tests use
`usize`).  Hash sets of symbols are modelled as `Finset Nat` (equality of hash
sets is extensional set equality, as is `Finset` equality), and hash maps used
during DFA construction are modelled as association lists / index lists.
-/

set_option maxHeartbeats 1000000

/-- The regular-expression data type (`builder.rs`, `enum Regex`). -/
inductive Regex where
  | EmptySet
  | EmptyString
  | Symbol (value : Nat)
  | Concat (left right : Regex)
  | Closure (inner : Regex)
  | Or (left right : Regex)
  | And (left right : Regex)
  | Complement (inner : Regex)
deriving DecidableEq, Repr

namespace Regex

/-- `similarity.rs`, `fn rank`: constructor rank used by the term order. -/
def rank : Regex → Nat
  | .EmptySet => 1
  | .EmptyString => 2
  | .Symbol _ => 3
  | .Concat _ _ => 4
  | .Closure _ => 5
  | .Or _ _ => 6
  | .And _ _ => 7
  | .Complement _ => 8

/-- `similarity.rs`, `fn cmp`: the total order on terms used for sorting
union/intersection operands.  Same-constructor terms compare recursively
(left child first, then right); otherwise terms compare by `rank`. -/
def cmp : Regex → Regex → Ordering
  | .Symbol a, .Symbol b => compare a b
  | .Concat ll lr, .Concat rl rr => (cmp ll rl).then (cmp lr rr)
  | .Closure li, .Closure ri => cmp li ri
  | .Or ll lr, .Or rl rr => (cmp ll rl).then (cmp lr rr)
  | .And ll lr, .And rl rr => (cmp ll rl).then (cmp lr rr)
  | .Complement li, .Complement ri => cmp li ri
  | l, r => compare l.rank r.rank

/-- `similarity.rs`, `Regex::is_empty_set_complement`. -/
def isEmptySetComplement : Regex → Bool
  | .Complement .EmptySet => true
  | _ => false

/-- `similarity.rs`, `into_reverse_concat_iter`, read forwards: the operand
list of a (left-nested) chain of `Concat` nodes.  The iterator walks only the
left child of each `Concat`; the right child is an operand as-is. -/
def concatOps : Regex → List Regex
  | .Concat next value => concatOps next ++ [value]
  | r => [r]

/-- `similarity.rs`, `into_reverse_or_iter`, read forwards. -/
def orOps : Regex → List Regex
  | .Or next value => orOps next ++ [value]
  | r => [r]

/-- `similarity.rs`, `into_reverse_and_iter`, read forwards. -/
def andOps : Regex → List Regex
  | .And next value => andOps next ++ [value]
  | r => [r]

end Regex

/-- `Iterator::reduce(|l, r| Regex::Concat(l, r))` over a non-empty operand
list (the `[]` case is unreachable in the source, which unwraps with
"at least two items"). -/
def foldConcat : List Regex → Regex
  | [] => .EmptySet
  | x :: xs => xs.foldl .Concat x

/-- `Iterator::reduce(|l, r| Regex::Or(l, r))` over a non-empty operand list. -/
def foldOr : List Regex → Regex
  | [] => .EmptySet
  | x :: xs => xs.foldl .Or x

/-- `Iterator::reduce(|l, r| Regex::And(l, r))` over a non-empty operand list. -/
def foldAnd : List Regex → Regex
  | [] => .EmptySet
  | x :: xs => xs.foldl .And x

/-- The sorting predicate corresponding to `Itertools::sorted_by(cmp)`:
`l` may precede `r` iff `cmp l r ≠ gt`. -/
def rle (l r : Regex) : Prop := Regex.cmp l r ≠ Ordering.gt

instance : DecidableRel rle := fun l r => by unfold rle; infer_instance

/-- `Itertools::sorted_by(cmp)`.  The source uses a stable sort; because
`cmp` returns `eq` only on structurally equal terms (proved below), every
sort by `cmp` produces the same list, so insertion sort is a faithful model. -/
def sortOps (l : List Regex) : List Regex := List.insertionSort rle l

/-- `Itertools::dedup()`: remove consecutive structurally-equal elements. -/
def dedupAdj : List Regex → List Regex
  | [] => []
  | [a] => [a]
  | a :: b :: t => if a = b then dedupAdj (b :: t) else a :: dedupAdj (b :: t)

/-! The canonicalizing builder `ApproximatelySimilarCanonical` of
`builder/similarity.rs` (abbreviated `ASC` throughout, as the library's own
tests also do). -/

namespace ASC

/-- `ApproximatelySimilarCanonical::empty_set`. -/
def empty_set : Regex := .EmptySet

/-- `ApproximatelySimilarCanonical::empty_string`. -/
def empty_string : Regex := .EmptyString

/-- `ApproximatelySimilarCanonical::symbol`. -/
def symbol (value : Nat) : Regex := .Symbol value

/-- `ApproximatelySimilarCanonical::closure`. -/
def closure : Regex → Regex
  | .EmptySet => .EmptyString
  | .EmptyString => .EmptyString
  | .Closure inner => .Closure inner
  | inner => .Closure inner

/-- `ApproximatelySimilarCanonical::complement`. -/
def complement : Regex → Regex
  | .Complement inner => inner
  | inner => .Complement inner

/-- `ApproximatelySimilarCanonical::concat`.  The source matches
`(EmptySet, _) | (_, EmptySet)`, then `(EmptyString, inner) | (inner,
EmptyString)`, then the fall-through, which flattens both sides' concat
chains and re-folds the whole operand sequence with the raw `Concat`
constructor (a left fold, hence a left-nested result). -/
def concat (left right : Regex) : Regex :=
  if left = .EmptySet ∨ right = .EmptySet then empty_set
  else if left = .EmptyString then right
  else if right = .EmptyString then left
  else foldConcat (left.concatOps ++ right.concatOps)

/-- `ApproximatelySimilarCanonical::or`.  The source matches `(EmptySet,
inner) | (inner, EmptySet)`, then any side being `!∅`, then the fall-through,
which flattens both sides' or chains, sorts by `cmp`, removes adjacent
duplicates and re-folds with the raw `Or` constructor (a left fold). -/
def or (left right : Regex) : Regex :=
  if left = .EmptySet then right
  else if right = .EmptySet then left
  else if left.isEmptySetComplement then complement empty_set
  else if right.isEmptySetComplement then complement empty_set
  else foldOr (dedupAdj (sortOps (left.orOps ++ right.orOps)))

/-- `ApproximatelySimilarCanonical::and`: dual to `or` (the `!∅` arm returns
the other operand; the `EmptySet` arm returns `EmptySet`). -/
def and (left right : Regex) : Regex :=
  if left = .EmptySet ∨ right = .EmptySet then empty_set
  else if left.isEmptySetComplement then right
  else if right.isEmptySetComplement then left
  else foldAnd (dedupAdj (sortOps (left.andOps ++ right.andOps)))

end ASC

namespace Regex

/-- `builder.rs`, `Regex::rebuild` instantiated at the canonicalizing
builder; this is also `Clone for Regex` (`clone` is `rebuild` through the
term's own builder). -/
def rebuild : Regex → Regex
  | .EmptySet => ASC.empty_set
  | .EmptyString => ASC.empty_string
  | .Symbol value => ASC.symbol value
  | .Concat left right => ASC.concat left.rebuild right.rebuild
  | .Closure inner => ASC.closure inner.rebuild
  | .Or left right => ASC.or left.rebuild right.rebuild
  | .And left right => ASC.and left.rebuild right.rebuild
  | .Complement inner => ASC.complement inner.rebuild

/-- `nullability.rs`, `Regex::is_nullable`. -/
def is_nullable : Regex → Bool
  | .EmptySet => false
  | .EmptyString => true
  | .Symbol _ => false
  | .Concat left right => left.is_nullable && right.is_nullable
  | .Closure _ => true
  | .Or left right => left.is_nullable || right.is_nullable
  | .And left right => left.is_nullable && right.is_nullable
  | .Complement inner => !inner.is_nullable

/-- `nullability.rs`, `Regex::nullable`. -/
def nullable (r : Regex) : Regex :=
  if r.is_nullable then .EmptyString else .EmptySet

end Regex

/-- `derivation.rs`, `enum Symbols`: a finite (`Include`) or cofinite
(`Exclude`) class of symbols. -/
inductive Symbols where
  | Include (symbols : Finset Nat)
  | Exclude (symbols : Finset Nat)
deriving DecidableEq

namespace Symbols

/-- `derivation.rs`, `Symbols::matches`. -/
def smatches : Symbols → Nat → Bool
  | .Include included, symbol => decide (symbol ∈ included)
  | .Exclude excluded, symbol => !decide (symbol ∈ excluded)

/-- `derivation.rs`, `BitOr for Symbols`. -/
def bitor : Symbols → Symbols → Symbols
  | .Include left, .Include right => .Include (left ∪ right)
  | .Exclude left, .Exclude right => .Exclude (left ∩ right)
  | .Include included, .Exclude excluded => .Exclude (excluded \ included)
  | .Exclude excluded, .Include included => .Exclude (excluded \ included)

/-- `derivation.rs`, `BitAnd for Symbols`. -/
def bitand : Symbols → Symbols → Symbols
  | .Include left, .Include right => .Include (left ∩ right)
  | .Exclude left, .Exclude right => .Exclude (left ∪ right)
  | .Include included, .Exclude excluded => .Include (included \ excluded)
  | .Exclude excluded, .Include included => .Include (included \ excluded)

/-- `derivation.rs`, `Not for Symbols`. -/
def snot : Symbols → Symbols
  | .Include symbols => .Exclude symbols
  | .Exclude symbols => .Include symbols

end Symbols

namespace Regex

/-- `derivation.rs`, `Regex::derive_symbols`.  The calls to `.clone()` in the
source are `rebuild` through the canonicalizing builder (see `Clone for
Regex`). -/
def derive_symbols : Regex → Symbols → Regex
  | .EmptySet, _ => ASC.empty_set
  | .EmptyString, _ => ASC.empty_set
  | .Symbol inner, symbol =>
      if symbol.smatches inner then ASC.empty_string else ASC.empty_set
  | .Concat left right, symbol =>
      ASC.or (ASC.concat (left.derive_symbols symbol) right.rebuild)
             (ASC.concat left.nullable (right.derive_symbols symbol))
  | .Closure inner, symbol =>
      ASC.concat (inner.derive_symbols symbol) (ASC.closure inner.rebuild)
  | .Or left right, symbol =>
      ASC.or (left.derive_symbols symbol) (right.derive_symbols symbol)
  | .And left right, symbol =>
      ASC.and (left.derive_symbols symbol) (right.derive_symbols symbol)
  | .Complement inner, symbol => ASC.complement (inner.derive_symbols symbol)

/-- `derivation.rs`, `Regex::derive`: derivative w.r.t. a single symbol. -/
def derive (r : Regex) (symbol : Nat) : Regex :=
  r.derive_symbols (Symbols.Include {symbol})

/-- `derivation.rs`, `Regex::derive_iter`: clone, then fold `derive` over the
word. -/
def derive_iter (r : Regex) (symbols : List Nat) : Regex :=
  symbols.foldl derive r.rebuild

/-- `derivation.rs`, `Regex::is_match`. -/
def is_match (r : Regex) (symbols : List Nat) : Bool :=
  (r.derive_iter symbols).is_nullable

/-- `automaton.rs`, `Regex::collect_symbols`, returning the symbols in
traversal order (the source inserts them into a hash set; the set itself is
`symbolSet` below). -/
def collect_symbols : Regex → List Nat
  | .EmptySet => []
  | .EmptyString => []
  | .Symbol symbol => [symbol]
  | .Concat left right => left.collect_symbols ++ right.collect_symbols
  | .Closure inner => inner.collect_symbols
  | .Or left right => left.collect_symbols ++ right.collect_symbols
  | .And left right => left.collect_symbols ++ right.collect_symbols
  | .Complement inner => inner.collect_symbols

/-- The hash set built by `collect_symbols` (extensional content). -/
def symbolSet (r : Regex) : Finset Nat := r.collect_symbols.toFinset

end Regex

/-- `automaton.rs`, `struct State`.  The per-symbol transition hash map is
modelled as an association list in iteration order. -/
structure FAState where
  regex : Regex
  accepting : Bool
  transitions : List (Nat × Nat)
  default_transition : Nat
deriving DecidableEq, Repr

/-- `automaton.rs`, `struct FiniteAutomaton`. -/
structure FiniteAutomaton where
  states : List FAState
deriving DecidableEq, Repr

/-- Association-list lookup (`HashMap::get` on the transition map). -/
def lookupSym : List (Nat × Nat) → Nat → Option Nat
  | [], _ => none
  | (k, v) :: t, symbol => if k = symbol then some v else lookupSym t symbol

/-- Position of the first occurrence of `r` (`HashMap::get` on the intern
map from regexes to state indices; indices are assigned in insertion order,
so the map is modelled by the list of interned regexes). -/
def listPos : List Regex → Regex → Nat
  | [], _ => 0
  | a :: t, r => if a = r then 0 else listPos t r + 1

/-- `automaton.rs`, `fn get_or_insert` inside `to_automaton`: look a regex up
in the intern map; if absent, assign it the next index and enqueue it.
Returns the index, the new queue, and the new intern list. -/
def getOrInsert (r : Regex) (queue : List Regex) (regexes : List Regex) :
    Nat × List Regex × List Regex :=
  if r ∈ regexes then (listPos regexes r, queue, regexes)
  else (regexes.length, queue ++ [r], regexes ++ [r])

/-- The `for symbol in &symbols` loop of `to_automaton`: build the per-symbol
transitions of `regex`, interning each single-symbol derivative.  The source
iterates a hash set in unspecified order; the order is not observable (the
spec notes this), and we iterate the sorted symbol list. -/
def mkTransitions (regex : Regex) :
    List Nat → List Regex → List Regex → List (Nat × Nat) × List Regex × List Regex
  | [], queue, regexes => ([], queue, regexes)
  | symbol :: rest, queue, regexes =>
    let g := getOrInsert (regex.derive_symbols (Symbols.Include {symbol})) queue regexes
    let m := mkTransitions regex rest g.2.1 g.2.2
    ((symbol, g.1) :: m.1, m.2.1, m.2.2)

/-- The worklist loop of `to_automaton` (`while let Some(regex) = queue.pop_front()`),
with explicit fuel: the source's termination rests on the finiteness of the
set of canonical derivatives, which the loop itself does not enforce.  `none`
means the fuel ran out before the queue drained. -/
def explore (syms : List Nat) (dflt : Symbols) :
    Nat → List Regex → List Regex → List FAState → Option (List FAState)
  | _, [], _, states => some states
  | 0, _ :: _, _, _ => none
  | fuel + 1, regex :: queue, regexes, states =>
    let m := mkTransitions regex syms queue regexes
    let g := getOrInsert (regex.derive_symbols dflt) m.2.1 m.2.2
    explore syms dflt fuel g.2.1 g.2.2
      (states ++ [⟨regex, regex.is_nullable, m.1, g.1⟩])

/-- Remove consecutive duplicate symbols. -/
def dedupAdjNat : List Nat → List Nat
  | [] => []
  | [a] => [a]
  | a :: b :: t => if a = b then dedupAdjNat (b :: t) else a :: dedupAdjNat (b :: t)

/-- The iteration order of the collected symbol hash set: each distinct
symbol exactly once, in sorted order (the source iterates the hash set in an
order that is not observable through the matcher; see the spec's determinism
note). -/
def Regex.symsList (r : Regex) : List Nat :=
  dedupAdjNat (List.insertionSort (· ≤ ·) r.collect_symbols)

/-- `automaton.rs`, `Regex::to_automaton`, with explicit fuel for the
worklist loop.  The initial `get_or_insert(self.clone(), ...)` interns the
rebuilt (cloned) regex as state 0. -/
def Regex.to_automaton (r : Regex) (fuel : Nat) : Option FiniteAutomaton :=
  let syms := r.symsList
  let dflt := Symbols.Exclude (Regex.symbolSet r)
  (explore syms dflt fuel [r.rebuild] [r.rebuild] []).map FiniteAutomaton.mk

namespace FiniteAutomaton

/-- `automaton.rs`, `FiniteAutomaton::next`: per-symbol transition if the
symbol is in the map, else the default transition.  Indexing a state that is
out of bounds is a panic in the source; the result `0` returned here is junk
that is proved unreachable (claim on transition-target validity). -/
def next (fa : FiniteAutomaton) (current : Nat) (symbol : Nat) : Nat :=
  match fa.states.get? current with
  | some st =>
    match lookupSym st.transitions symbol with
    | some t => t
    | none => st.default_transition
  | none => 0

/-- `automaton.rs`, `FiniteAutomaton::is_accepting` (again, out-of-bounds
indexing is a panic in the source, modelled by the junk value `false`). -/
def is_accepting (fa : FiniteAutomaton) (current : Nat) : Bool :=
  match fa.states.get? current with
  | some st => st.accepting
  | none => false

/-- `automaton.rs`, `Matcher::next_iter` run on a fresh matcher (`to_matcher`
starts at state 0): advance through all symbols, then report whether the
final state is accepting. -/
def next_iter (fa : FiniteAutomaton) (symbols : List Nat) : Bool :=
  fa.is_accepting (symbols.foldl fa.next 0)

end FiniteAutomaton

/-!  ## Language semantics

The denotation of a regex as a formal language, used to state and prove the
semantic claims (nullability correctness and derivative soundness).  This is
the reference meaning described in the spec's data model, not code of the
library. -/

/-- The language denoted by a regex. -/
def Regex.lang : Regex → Language Nat
  | .EmptySet => 0
  | .EmptyString => 1
  | .Symbol value => {[value]}
  | .Concat left right => left.lang * right.lang
  | .Closure inner => KStar.kstar inner.lang
  | .Or left right => left.lang + right.lang
  | .And left right => left.lang ⊓ right.lang
  | .Complement inner => (inner.lang)ᶜ

lemma lang_foldl_Concat (xs : List Regex) (x : Regex) :
    (xs.foldl Regex.Concat x).lang = x.lang * (xs.map Regex.lang).prod := by
  induction xs generalizing x with
  | nil => simp
  | cons a t ih => simp [List.foldl_cons, ih, Regex.lang, mul_assoc]

lemma lang_concatOps : ∀ r : Regex, (r.concatOps.map Regex.lang).prod = r.lang
  | .EmptySet => by simp [Regex.concatOps]
  | .EmptyString => by simp [Regex.concatOps]
  | .Symbol _ => by simp [Regex.concatOps]
  | .Concat l r => by
    simp [Regex.concatOps, List.prod_append, lang_concatOps l, Regex.lang]
  | .Closure _ => by simp [Regex.concatOps]
  | .Or _ _ => by simp [Regex.concatOps]
  | .And _ _ => by simp [Regex.concatOps]
  | .Complement _ => by simp [Regex.concatOps]

lemma concatOps_ne_nil (r : Regex) : r.concatOps ≠ [] := by
  cases r <;> simp [Regex.concatOps]

lemma lang_foldConcat (l : List Regex) (h : l ≠ []) :
    (foldConcat l).lang = (l.map Regex.lang).prod := by
  cases l with
  | nil => exact absurd rfl h
  | cons x xs => simp [foldConcat, lang_foldl_Concat, Regex.lang]

lemma ASC.lang_concat (l r : Regex) :
    (ASC.concat l r).lang = l.lang * r.lang := by
  unfold ASC.concat
  split_ifs with h1 h2 h3
  · rcases h1 with h | h <;> subst h <;>
      simp [ASC.empty_set, Regex.lang]
  · subst h2; simp [Regex.lang]
  · subst h3; simp [Regex.lang]
  · rw [lang_foldConcat _ (by simp [concatOps_ne_nil])]
    simp [List.prod_append, lang_concatOps]

lemma lang_foldl_Or (xs : List Regex) (x : Regex) :
    (xs.foldl Regex.Or x).lang = x.lang + (xs.map Regex.lang).sum := by
  induction xs generalizing x with
  | nil => simp
  | cons a t ih => simp [List.foldl_cons, ih, Regex.lang, add_assoc]

lemma lang_orOps : ∀ r : Regex, (r.orOps.map Regex.lang).sum = r.lang
  | .EmptySet => by simp [Regex.orOps]
  | .EmptyString => by simp [Regex.orOps]
  | .Symbol _ => by simp [Regex.orOps]
  | .Concat _ _ => by simp [Regex.orOps]
  | .Closure _ => by simp [Regex.orOps]
  | .Or l r => by
    simp [Regex.orOps, List.sum_append, lang_orOps l, Regex.lang]
  | .And _ _ => by simp [Regex.orOps]
  | .Complement _ => by simp [Regex.orOps]

lemma lang_foldOr (l : List Regex) (h : l ≠ []) :
    (foldOr l).lang = (l.map Regex.lang).sum := by
  cases l with
  | nil => exact absurd rfl h
  | cons x xs => simp [foldOr, lang_foldl_Or, Regex.lang]

lemma dedupAdj_ne_nil : ∀ l : List Regex, l ≠ [] → dedupAdj l ≠ []
  | [], h => absurd rfl h
  | [a], _ => by simp [dedupAdj]
  | a :: b :: t, _ => by
    rw [dedupAdj]
    split_ifs
    · exact dedupAdj_ne_nil (b :: t) (by simp)
    · simp

lemma sum_dedupAdj : ∀ l : List Regex,
    ((dedupAdj l).map Regex.lang).sum = (l.map Regex.lang).sum
  | [] => rfl
  | [a] => rfl
  | a :: b :: t => by
    rw [dedupAdj]
    split_ifs with h
    · subst h
      rw [sum_dedupAdj (a :: t)]
      simp [← add_assoc, Language.add_self]
    · simp [sum_dedupAdj (b :: t)]

lemma sum_sortOps (l : List Regex) :
    ((sortOps l).map Regex.lang).sum = (l.map Regex.lang).sum :=
  ((List.perm_insertionSort rle l).map Regex.lang).sum_eq

lemma isEmptySetComplement_iff (r : Regex) :
    r.isEmptySetComplement = true ↔ r = .Complement .EmptySet := by
  cases r with
  | Complement i => cases i <;> simp [Regex.isEmptySetComplement]
  | _ => simp [Regex.isEmptySetComplement]

lemma lang_zero_bot : (0 : Language Nat) = ⊥ := rfl

lemma lang_complement_empty : (Regex.Complement Regex.EmptySet).lang = ⊤ := by
  show (Regex.EmptySet.lang)ᶜ = ⊤
  rw [show Regex.EmptySet.lang = ⊥ from lang_zero_bot]
  exact compl_bot

lemma lang_top_add (l : Language Nat) : (⊤ : Language Nat) + l = ⊤ := by
  rw [Language.add_def]
  exact Set.univ_union _

lemma lang_add_top (l : Language Nat) : l + (⊤ : Language Nat) = ⊤ := by
  rw [Language.add_def]
  exact Set.union_univ _

lemma orOps_ne_nil (r : Regex) : r.orOps ≠ [] := by
  cases r <;> simp [Regex.orOps]

lemma sortOps_ne_nil (l : List Regex) (h : l ≠ []) : sortOps l ≠ [] := by
  intro hc
  have hlen := (List.perm_insertionSort rle l).length_eq
  rw [show List.insertionSort rle l = sortOps l from rfl, hc] at hlen
  exact h (List.eq_nil_of_length_eq_zero hlen.symm)

lemma ASC.lang_or (l r : Regex) : (ASC.or l r).lang = l.lang + r.lang := by
  unfold ASC.or
  split_ifs with h1 h2 h3 h4
  · subst h1; simp [Regex.lang]
  · subst h2; simp [Regex.lang]
  · rw [(isEmptySetComplement_iff l).mp h3]
    show (Regex.Complement Regex.EmptySet).lang = _
    rw [lang_complement_empty, lang_top_add]
  · rw [(isEmptySetComplement_iff r).mp h4]
    show (Regex.Complement Regex.EmptySet).lang = _
    rw [lang_complement_empty, lang_add_top]
  · rw [lang_foldOr _ (dedupAdj_ne_nil _ (sortOps_ne_nil _ (by simp [orOps_ne_nil])))]
    rw [sum_dedupAdj, sum_sortOps]
    simp [List.sum_append, lang_orOps]

/-- Pointwise intersection of the languages of a list of regexes. -/
def infLang (l : List Regex) : Language Nat :=
  l.foldr (fun r acc => r.lang ⊓ acc) ⊤

lemma infLang_append (l₁ l₂ : List Regex) :
    infLang (l₁ ++ l₂) = infLang l₁ ⊓ infLang l₂ := by
  induction l₁ with
  | nil => simp [infLang]
  | cons a t ih => simp [infLang, List.foldr_cons, inf_assoc] at ih ⊢; rw [ih]

lemma lang_foldl_And (xs : List Regex) (x : Regex) :
    (xs.foldl Regex.And x).lang = x.lang ⊓ infLang xs := by
  induction xs generalizing x with
  | nil => simp [infLang]
  | cons a t ih => simp [List.foldl_cons, ih, Regex.lang, infLang, inf_assoc]

lemma lang_andOps : ∀ r : Regex, infLang r.andOps = r.lang
  | .EmptySet => by simp [Regex.andOps, infLang]
  | .EmptyString => by simp [Regex.andOps, infLang]
  | .Symbol _ => by simp [Regex.andOps, infLang]
  | .Concat _ _ => by simp [Regex.andOps, infLang]
  | .Closure _ => by simp [Regex.andOps, infLang]
  | .Or _ _ => by simp [Regex.andOps, infLang]
  | .And l r => by
    rw [Regex.andOps, infLang_append, lang_andOps l]
    simp [infLang, Regex.lang]
  | .Complement _ => by simp [Regex.andOps, infLang]

lemma lang_foldAnd (l : List Regex) (h : l ≠ []) :
    (foldAnd l).lang = infLang l := by
  cases l with
  | nil => exact absurd rfl h
  | cons x xs => simp [foldAnd, lang_foldl_And, infLang]

lemma inf_dedupAdj : ∀ l : List Regex, infLang (dedupAdj l) = infLang l
  | [] => rfl
  | [a] => rfl
  | a :: b :: t => by
    rw [dedupAdj]
    split_ifs with h
    · subst h
      rw [inf_dedupAdj (a :: t)]
      simp [infLang, ← inf_assoc]
    · have ih := inf_dedupAdj (b :: t)
      simp only [infLang, List.foldr_cons] at ih ⊢
      rw [ih]

lemma inf_sortOps (l : List Regex) : infLang (sortOps l) = infLang l := by
  have lcomm : LeftCommutative (fun (r : Regex) (acc : Language Nat) => r.lang ⊓ acc) :=
    ⟨fun a b z => inf_left_comm a.lang b.lang z⟩
  exact @List.Perm.foldr_eq _ _ _ _ _ lcomm (List.perm_insertionSort rle l) ⊤

lemma andOps_ne_nil (r : Regex) : r.andOps ≠ [] := by
  cases r <;> simp [Regex.andOps]

lemma lang_zero_inf (l : Language Nat) : (0 : Language Nat) ⊓ l = 0 := by
  rw [lang_zero_bot]
  exact bot_inf_eq _

lemma lang_inf_zero (l : Language Nat) : l ⊓ (0 : Language Nat) = 0 := by
  rw [lang_zero_bot]
  exact inf_bot_eq _

lemma ASC.lang_and (l r : Regex) : (ASC.and l r).lang = l.lang ⊓ r.lang := by
  unfold ASC.and
  split_ifs with h1 h2 h3
  · rcases h1 with h | h <;> subst h
    · show (0 : Language Nat) = Regex.EmptySet.lang ⊓ r.lang
      rw [show Regex.EmptySet.lang = (0 : Language Nat) from rfl, lang_zero_inf]
    · show (0 : Language Nat) = l.lang ⊓ Regex.EmptySet.lang
      rw [show Regex.EmptySet.lang = (0 : Language Nat) from rfl, lang_inf_zero]
  · rw [(isEmptySetComplement_iff l).mp h2, lang_complement_empty, top_inf_eq]
  · rw [(isEmptySetComplement_iff r).mp h3, lang_complement_empty, inf_top_eq]
  · rw [lang_foldAnd _ (dedupAdj_ne_nil _ (sortOps_ne_nil _ (by simp [andOps_ne_nil])))]
    rw [inf_dedupAdj, inf_sortOps, infLang_append]
    simp [lang_andOps]

lemma ASC.lang_closure (i : Regex) :
    (ASC.closure i).lang = KStar.kstar i.lang := by
  cases i <;> simp [ASC.closure, Regex.lang, kstar_zero, kstar_one, kstar_idem]

lemma ASC.lang_complement (i : Regex) : (ASC.complement i).lang = (i.lang)ᶜ := by
  cases i <;> simp [ASC.complement, Regex.lang, compl_compl]

lemma lang_rebuild (r : Regex) : r.rebuild.lang = r.lang := by
  induction r with
  | EmptySet => rfl
  | EmptyString => rfl
  | Symbol _ => rfl
  | Concat l r ihl ihr =>
    rw [Regex.rebuild, ASC.lang_concat, ihl, ihr]; rfl
  | Closure i ih => rw [Regex.rebuild, ASC.lang_closure, ih]; rfl
  | Or l r ihl ihr => rw [Regex.rebuild, ASC.lang_or, ihl, ihr]; rfl
  | And l r ihl ihr => rw [Regex.rebuild, ASC.lang_and, ihl, ihr]; rfl
  | Complement i ih => rw [Regex.rebuild, ASC.lang_complement, ih]; rfl

/-! ## Nullability and derivative soundness -/

/-- `is_nullable` decides membership of the empty word. -/
lemma is_nullable_iff_nil_mem : ∀ r : Regex, r.is_nullable = true ↔ [] ∈ r.lang
  | .EmptySet => by
    simp [Regex.is_nullable, Regex.lang, Language.not_mem_zero]
  | .EmptyString => by simp [Regex.is_nullable, Regex.lang, Language.mem_one]
  | .Symbol s => by
    simp [Regex.is_nullable, Regex.lang]
    intro h
    exact absurd h.symm (List.cons_ne_nil s [])
  | .Concat l r => by
    rw [Regex.is_nullable, Regex.lang, Bool.and_eq_true,
        is_nullable_iff_nil_mem l, is_nullable_iff_nil_mem r]
    constructor
    · rintro ⟨hl, hr⟩
      exact ⟨[], hl, [], hr, rfl⟩
    · rintro ⟨a, ha, b, hb, hab⟩
      obtain ⟨ha', hb'⟩ := List.append_eq_nil.mp hab
      subst ha'; subst hb'
      exact ⟨ha, hb⟩
  | .Closure i => by
    simp [Regex.is_nullable, Regex.lang, Language.nil_mem_kstar]
  | .Or l r => by
    rw [Regex.is_nullable, Regex.lang, Bool.or_eq_true,
        is_nullable_iff_nil_mem l, is_nullable_iff_nil_mem r]
    exact (Language.mem_add _ _ _).symm
  | .And l r => by
    rw [Regex.is_nullable, Regex.lang, Bool.and_eq_true,
        is_nullable_iff_nil_mem l, is_nullable_iff_nil_mem r]
    exact (Set.mem_inter_iff _ _ _).symm
  | .Complement i => by
    rw [Regex.is_nullable, Regex.lang, Bool.not_eq_true',
        ← Bool.not_eq_true, is_nullable_iff_nil_mem i]
    exact Iff.rfl

lemma lang_nullable (r : Regex) :
    r.nullable.lang = if r.is_nullable then (1 : Language Nat) else 0 := by
  unfold Regex.nullable
  split_ifs <;> rfl

/-- Splitting a word with a distinguished first symbol across a
concatenation. -/
lemma cons_mem_mul {l m : Language Nat} {s : Nat} {w : List Nat} :
    s :: w ∈ l * m ↔
      (∃ u v, s :: u ∈ l ∧ v ∈ m ∧ u ++ v = w) ∨ ([] ∈ l ∧ s :: w ∈ m) := by
  rw [Language.mem_mul]
  constructor
  · rintro ⟨a, ha, b, hb, hab⟩
    cases a with
    | nil => exact Or.inr ⟨ha, by simpa using hab ▸ hb⟩
    | cons x u =>
      obtain ⟨hx, hw⟩ := by simpa using hab
      subst hx
      exact Or.inl ⟨u, b, ha, hb, hw⟩
  · rintro (⟨u, v, hu, hv, huv⟩ | ⟨hl, hm⟩)
    · exact ⟨s :: u, hu, v, hv, by simp [huv]⟩
    · exact ⟨[], hl, s :: w, hm, rfl⟩

/-- Splitting a word with a distinguished first symbol across a Kleene
star: the first symbol belongs to a first non-empty factor. -/
lemma cons_mem_kstar {l : Language Nat} {s : Nat} {w : List Nat} :
    s :: w ∈ KStar.kstar l ↔
      ∃ u v, s :: u ∈ l ∧ v ∈ KStar.kstar l ∧ u ++ v = w := by
  constructor
  · intro h
    obtain ⟨S, hS, hmem⟩ := Language.mem_kstar_iff_exists_nonempty.mp h
    cases S with
    | nil => simp at hS
    | cons y S' =>
      obtain ⟨hy, hyne⟩ := hmem y (by simp)
      cases y with
      | nil => exact absurd rfl hyne
      | cons x u =>
        rw [List.flatten_cons] at hS
        obtain ⟨hx, hw⟩ := by simpa using hS
        subst hx
        refine ⟨u, S'.flatten, hy, ?_, hw.symm⟩
        exact Language.join_mem_kstar fun z hz => (hmem z (by simp [hz])).1
  · rintro ⟨u, v, hu, hv, huv⟩
    obtain ⟨S, hS, hmem⟩ := Language.mem_kstar.mp hv
    have : s :: w = ((s :: u) :: S).flatten := by
      simp [List.flatten_cons, ← huv, hS]
    rw [this]
    exact Language.join_mem_kstar (by
      rintro z hz
      rcases List.mem_cons.mp hz with h | h
      · subst h; exact hu
      · exact hmem z h)

/-- Soundness of `derive_symbols` for a symbol class that matches exactly
the symbol `s` (as `Include {s}` does): the derivative's language is the
left quotient by `s`. -/
lemma mem_derive_symbols (σ : Symbols) (s : Nat)
    (hσ : ∀ t, σ.smatches t = true ↔ t = s) :
    ∀ (r : Regex) (w : List Nat),
      w ∈ (r.derive_symbols σ).lang ↔ s :: w ∈ r.lang
  | .EmptySet, w => by
    simp [Regex.derive_symbols, ASC.empty_set, Regex.lang, Language.not_mem_zero]
  | .EmptyString, w => by
    simp [Regex.derive_symbols, ASC.empty_set, Regex.lang,
          Language.not_mem_zero, Language.mem_one]
  | .Symbol t, w => by
    rw [Regex.derive_symbols]
    split_ifs with h
    · rw [(hσ t).mp h]
      show w ∈ (1 : Language Nat) ↔ _
      rw [Language.mem_one]
      constructor
      · rintro rfl; rfl
      · intro hw
        have h1 : s :: w = [s] := hw
        injection h1 with _ h2
    · show w ∈ (0 : Language Nat) ↔ _
      constructor
      · intro hw; exact absurd hw (Language.not_mem_zero w)
      · intro hw
        have h1 : s :: w = [t] := hw
        have ht : t = s := by
          injection h1 with h1a _
          exact h1a.symm
        exact absurd ((hσ t).mpr ht) (by simp [h])
  | .Concat l r, w => by
    rw [Regex.derive_symbols, ASC.lang_or, ASC.lang_concat, ASC.lang_concat,
        lang_rebuild, lang_nullable, Language.mem_add]
    rw [show Regex.lang (.Concat l r) = l.lang * r.lang from rfl, cons_mem_mul]
    constructor
    · rintro (h | h)
      · rw [Language.mem_mul] at h
        obtain ⟨a, ha, b, hb, hab⟩ := h
        exact Or.inl ⟨a, b, (mem_derive_symbols σ s hσ l a).mp ha, hb, hab⟩
      · split_ifs at h with hn
        · rw [one_mul] at h
          exact Or.inr ⟨(is_nullable_iff_nil_mem l).mp hn,
            (mem_derive_symbols σ s hσ r w).mp h⟩
        · rw [zero_mul] at h
          exact absurd h (Language.not_mem_zero w)
    · rintro (⟨u, v, hu, hv, huv⟩ | ⟨hl, hr⟩)
      · refine Or.inl (Language.mem_mul.mpr ⟨u, ?_, v, hv, huv⟩)
        exact (mem_derive_symbols σ s hσ l u).mpr hu
      · refine Or.inr ?_
        rw [if_pos ((is_nullable_iff_nil_mem l).mpr hl), one_mul]
        exact (mem_derive_symbols σ s hσ r w).mpr hr
  | .Closure i, w => by
    rw [Regex.derive_symbols, ASC.lang_concat, ASC.lang_closure, lang_rebuild]
    rw [show Regex.lang (.Closure i) = KStar.kstar i.lang from rfl, cons_mem_kstar]
    rw [Language.mem_mul]
    constructor
    · rintro ⟨a, ha, b, hb, hab⟩
      exact ⟨a, b, (mem_derive_symbols σ s hσ i a).mp ha, hb, hab⟩
    · rintro ⟨u, v, hu, hv, huv⟩
      exact ⟨u, (mem_derive_symbols σ s hσ i u).mpr hu, v, hv, huv⟩
  | .Or l r, w => by
    rw [Regex.derive_symbols, ASC.lang_or, Language.mem_add,
        show Regex.lang (.Or l r) = l.lang + r.lang from rfl, Language.mem_add,
        mem_derive_symbols σ s hσ l w, mem_derive_symbols σ s hσ r w]
  | .And l r, w => by
    rw [Regex.derive_symbols, ASC.lang_and,
        show Regex.lang (.And l r) = l.lang ⊓ r.lang from rfl]
    rw [show ∀ x (a b : Language Nat), x ∈ a ⊓ b ↔ x ∈ a ∧ x ∈ b
          from fun x a b => Iff.rfl]
    rw [mem_derive_symbols σ s hσ l w, mem_derive_symbols σ s hσ r w]
    exact (Set.mem_inter_iff _ _ _).symm.trans (Set.mem_inter_iff _ _ _)
  | .Complement i, w => by
    rw [Regex.derive_symbols, ASC.lang_complement,
        show Regex.lang (.Complement i) = (i.lang)ᶜ from rfl]
    rw [show ∀ x (a : Language Nat), x ∈ aᶜ ↔ x ∉ a from fun x a => Iff.rfl]
    rw [mem_derive_symbols σ s hσ i w]
    exact Iff.rfl

/-- The singleton class `Include {s}` matches exactly `s`. -/
lemma include_singleton_matches (s : Nat) :
    ∀ t, (Symbols.Include {s}).smatches t = true ↔ t = s := by
  intro t
  simp [Symbols.smatches]

/-- Soundness of the single-symbol derivative. -/
lemma mem_derive (r : Regex) (s : Nat) (w : List Nat) :
    w ∈ (r.derive s).lang ↔ s :: w ∈ r.lang :=
  mem_derive_symbols _ s (include_singleton_matches s) r w

lemma foldl_derive_nullable :
    ∀ (w : List Nat) (d : Regex),
      (w.foldl Regex.derive d).is_nullable = true ↔ w ∈ d.lang
  | [], d => by
    rw [List.foldl_nil]
    exact is_nullable_iff_nil_mem d
  | s :: t, d => by
    rw [List.foldl_cons, foldl_derive_nullable t (d.derive s)]
    exact mem_derive d s t

/-- `is_match` decides language membership. -/
lemma is_match_iff_mem (r : Regex) (w : List Nat) :
    r.is_match w = true ↔ w ∈ r.lang := by
  rw [Regex.is_match, Regex.derive_iter, foldl_derive_nullable, lang_rebuild]

lemma bitor_matches (σ₁ σ₂ : Symbols) (s : Nat) :
    (σ₁.bitor σ₂).smatches s = (σ₁.smatches s || σ₂.smatches s) := by
  cases σ₁ <;> cases σ₂ <;>
    rw [Bool.eq_iff_iff] <;>
    simp [Symbols.bitor, Symbols.smatches, Finset.mem_union,
          Finset.mem_inter, Finset.mem_sdiff] <;>
    tauto

lemma bitand_matches (σ₁ σ₂ : Symbols) (s : Nat) :
    (σ₁.bitand σ₂).smatches s = (σ₁.smatches s && σ₂.smatches s) := by
  cases σ₁ <;> cases σ₂ <;>
    rw [Bool.eq_iff_iff] <;>
    simp [Symbols.bitand, Symbols.smatches, Finset.mem_union,
          Finset.mem_inter, Finset.mem_sdiff] <;>
    tauto

lemma snot_matches (σ₁ : Symbols) (s : Nat) :
    (σ₁.snot).smatches s = (!σ₁.smatches s) := by
  cases σ₁ <;> simp [Symbols.snot, Symbols.smatches]

/-! ## Claim theorems (first group) -/

/-- C2: for every regex `R`, symbol `s` and word `w`, matching `R` against
`s :: w` gives the same boolean as matching the single-symbol derivative
`derive R s` against `w`. -/
theorem c2_derive_soundness (r : Regex) (s : Nat) (w : List Nat) :
    r.is_match (s :: w) = (r.derive s).is_match w := by
  rw [Bool.eq_iff_iff, is_match_iff_mem, is_match_iff_mem, mem_derive]

/-- C5: `is_nullable R` is true exactly when the empty string is in the
language of `R`, and it follows the recursive definition (false on
`EmptySet`/`Symbol`, true on `EmptyString`/`Closure`, conjunction on
`Concat`/`And`, disjunction on `Or`, negation on `Complement`). -/
theorem c5_is_nullable_correct :
    ∀ r : Regex, (r.is_nullable = true ↔ [] ∈ r.lang) ∧
      Regex.is_nullable .EmptySet = false ∧
      Regex.is_nullable .EmptyString = true ∧
      (∀ s, Regex.is_nullable (.Symbol s) = false) ∧
      (∀ l rr : Regex,
        Regex.is_nullable (.Concat l rr) = (l.is_nullable && rr.is_nullable)) ∧
      (∀ i, Regex.is_nullable (.Closure i) = true) ∧
      (∀ l rr : Regex,
        Regex.is_nullable (.Or l rr) = (l.is_nullable || rr.is_nullable)) ∧
      (∀ l rr : Regex,
        Regex.is_nullable (.And l rr) = (l.is_nullable && rr.is_nullable)) ∧
      (∀ i : Regex, Regex.is_nullable (.Complement i) = !i.is_nullable) :=
  fun r => ⟨is_nullable_iff_nil_mem r, rfl, rfl, fun _ => rfl, fun _ _ => rfl,
    fun _ => rfl, fun _ _ => rfl, fun _ _ => rfl, fun _ => rfl⟩

/-- C6: the symbol-class operators obey the stated Include/Exclude equations,
and consequently `smatches` on a union/intersection/complement of classes is
the disjunction/conjunction/negation of `smatches` on the arguments. -/
theorem c6_symbols_algebra :
    ∀ (A B : Finset Nat) (σ₁ σ₂ : Symbols) (s : Nat),
      Symbols.bitor (.Include A) (.Include B) = .Include (A ∪ B) ∧
      Symbols.bitor (.Exclude A) (.Exclude B) = .Exclude (A ∩ B) ∧
      Symbols.bitor (.Include A) (.Exclude B) = .Exclude (B \ A) ∧
      Symbols.bitand (.Include A) (.Include B) = .Include (A ∩ B) ∧
      Symbols.bitand (.Exclude A) (.Exclude B) = .Exclude (A ∪ B) ∧
      Symbols.bitand (.Include A) (.Exclude B) = .Include (A \ B) ∧
      Symbols.snot (.Include A) = .Exclude A ∧
      Symbols.snot (.Exclude A) = .Include A ∧
      (σ₁.bitor σ₂).smatches s = (σ₁.smatches s || σ₂.smatches s) ∧
      (σ₁.bitand σ₂).smatches s = (σ₁.smatches s && σ₂.smatches s) ∧
      (σ₁.snot).smatches s = (!σ₁.smatches s) :=
  fun A B σ₁ σ₂ s => ⟨rfl, rfl, rfl, rfl, rfl, rfl, rfl, rfl,
    bitor_matches σ₁ σ₂ s, bitand_matches σ₁ σ₂ s, snot_matches σ₁ s⟩

/-! ## Order theory for the term comparator `cmp` -/

lemma compare_nat_swap (a b : Nat) : (compare a b).swap = compare b a := by
  rcases lt_trichotomy a b with h | h | h
  · rw [compare_lt_iff_lt.mpr h, compare_gt_iff_gt.mpr h]; rfl
  · subst h; rw [compare_eq_iff_eq.mpr rfl]; rfl
  · rw [compare_gt_iff_gt.mpr h, compare_lt_iff_lt.mpr h]; rfl

lemma cmp_swap_concat {l1 r1 l2 r2 : Regex}
    (h1 : (Regex.cmp l1 l2).swap = Regex.cmp l2 l1)
    (h2 : (Regex.cmp r1 r2).swap = Regex.cmp r2 r1) :
    (Regex.cmp (.Concat l1 r1) (.Concat l2 r2)).swap
      = Regex.cmp (.Concat l2 r2) (.Concat l1 r1) := by
  show ((Regex.cmp l1 l2).then (Regex.cmp r1 r2)).swap
      = (Regex.cmp l2 l1).then (Regex.cmp r2 r1)
  rw [Ordering.swap_then, h1, h2]

lemma cmp_swap_or {l1 r1 l2 r2 : Regex}
    (h1 : (Regex.cmp l1 l2).swap = Regex.cmp l2 l1)
    (h2 : (Regex.cmp r1 r2).swap = Regex.cmp r2 r1) :
    (Regex.cmp (.Or l1 r1) (.Or l2 r2)).swap
      = Regex.cmp (.Or l2 r2) (.Or l1 r1) := by
  show ((Regex.cmp l1 l2).then (Regex.cmp r1 r2)).swap
      = (Regex.cmp l2 l1).then (Regex.cmp r2 r1)
  rw [Ordering.swap_then, h1, h2]

lemma cmp_swap_and {l1 r1 l2 r2 : Regex}
    (h1 : (Regex.cmp l1 l2).swap = Regex.cmp l2 l1)
    (h2 : (Regex.cmp r1 r2).swap = Regex.cmp r2 r1) :
    (Regex.cmp (.And l1 r1) (.And l2 r2)).swap
      = Regex.cmp (.And l2 r2) (.And l1 r1) := by
  show ((Regex.cmp l1 l2).then (Regex.cmp r1 r2)).swap
      = (Regex.cmp l2 l1).then (Regex.cmp r2 r1)
  rw [Ordering.swap_then, h1, h2]

lemma cmp_swap_closure {i j : Regex}
    (ih : (Regex.cmp i j).swap = Regex.cmp j i) :
    (Regex.cmp (.Closure i) (.Closure j)).swap
      = Regex.cmp (.Closure j) (.Closure i) := ih

lemma cmp_swap_complement {i j : Regex}
    (ih : (Regex.cmp i j).swap = Regex.cmp j i) :
    (Regex.cmp (.Complement i) (.Complement j)).swap
      = Regex.cmp (.Complement j) (.Complement i) := ih

lemma regex_cmp_swap : ∀ (x y : Regex), (Regex.cmp x y).swap = Regex.cmp y x
  | x, y => by
    cases x <;> cases y <;>
      first
        | rfl
        | exact compare_nat_swap _ _
        | exact cmp_swap_concat (regex_cmp_swap _ _) (regex_cmp_swap _ _)
        | exact cmp_swap_or (regex_cmp_swap _ _) (regex_cmp_swap _ _)
        | exact cmp_swap_and (regex_cmp_swap _ _) (regex_cmp_swap _ _)
        | exact cmp_swap_closure (regex_cmp_swap _ _)
        | exact cmp_swap_complement (regex_cmp_swap _ _)

lemma cmp_eq_symbol (a b : Nat) :
    Regex.cmp (.Symbol a) (.Symbol b) = .eq ↔ Regex.Symbol a = Regex.Symbol b := by
  show compare a b = .eq ↔ _
  rw [compare_eq_iff_eq]
  simp

lemma cmp_eq_concat {l1 r1 l2 r2 : Regex}
    (ihl : Regex.cmp l1 l2 = .eq ↔ l1 = l2)
    (ihr : Regex.cmp r1 r2 = .eq ↔ r1 = r2) :
    Regex.cmp (.Concat l1 r1) (.Concat l2 r2) = .eq
      ↔ Regex.Concat l1 r1 = Regex.Concat l2 r2 := by
  show (Regex.cmp l1 l2).then (Regex.cmp r1 r2) = .eq ↔ _
  rw [Ordering.then_eq_eq, ihl, ihr]
  simp

lemma cmp_eq_or {l1 r1 l2 r2 : Regex}
    (ihl : Regex.cmp l1 l2 = .eq ↔ l1 = l2)
    (ihr : Regex.cmp r1 r2 = .eq ↔ r1 = r2) :
    Regex.cmp (.Or l1 r1) (.Or l2 r2) = .eq
      ↔ Regex.Or l1 r1 = Regex.Or l2 r2 := by
  show (Regex.cmp l1 l2).then (Regex.cmp r1 r2) = .eq ↔ _
  rw [Ordering.then_eq_eq, ihl, ihr]
  simp

lemma cmp_eq_and {l1 r1 l2 r2 : Regex}
    (ihl : Regex.cmp l1 l2 = .eq ↔ l1 = l2)
    (ihr : Regex.cmp r1 r2 = .eq ↔ r1 = r2) :
    Regex.cmp (.And l1 r1) (.And l2 r2) = .eq
      ↔ Regex.And l1 r1 = Regex.And l2 r2 := by
  show (Regex.cmp l1 l2).then (Regex.cmp r1 r2) = .eq ↔ _
  rw [Ordering.then_eq_eq, ihl, ihr]
  simp

lemma cmp_eq_closure {i j : Regex} (ih : Regex.cmp i j = .eq ↔ i = j) :
    Regex.cmp (.Closure i) (.Closure j) = .eq ↔ Regex.Closure i = Regex.Closure j := by
  show Regex.cmp i j = .eq ↔ _
  rw [ih]
  simp

lemma cmp_eq_complement {i j : Regex} (ih : Regex.cmp i j = .eq ↔ i = j) :
    Regex.cmp (.Complement i) (.Complement j) = .eq
      ↔ Regex.Complement i = Regex.Complement j := by
  show Regex.cmp i j = .eq ↔ _
  rw [ih]
  simp

lemma cmp_eq_iff : ∀ (x y : Regex), Regex.cmp x y = .eq ↔ x = y
  | x, y => by
    cases x <;> cases y <;>
      first
        | exact iff_of_true rfl rfl
        | exact iff_of_false (fun h => Ordering.noConfusion h)
            (fun h => Regex.noConfusion h)
        | exact cmp_eq_symbol _ _
        | exact cmp_eq_concat (cmp_eq_iff _ _) (cmp_eq_iff _ _)
        | exact cmp_eq_or (cmp_eq_iff _ _) (cmp_eq_iff _ _)
        | exact cmp_eq_and (cmp_eq_iff _ _) (cmp_eq_iff _ _)
        | exact cmp_eq_closure (cmp_eq_iff _ _)
        | exact cmp_eq_complement (cmp_eq_iff _ _)

lemma cmp_refl (x : Regex) : Regex.cmp x x = .eq := (cmp_eq_iff x x).mpr rfl

lemma cmp_lt_trans_symbol {a b c : Nat}
    (h1 : Regex.cmp (.Symbol a) (.Symbol b) = .lt)
    (h2 : Regex.cmp (.Symbol b) (.Symbol c) = .lt) :
    Regex.cmp (.Symbol a) (.Symbol c) = .lt := by
  have g1 : compare a b = .lt := h1
  have g2 : compare b c = .lt := h2
  show compare a c = .lt
  rw [compare_lt_iff_lt] at g1 g2 ⊢
  exact g1.trans g2

lemma cmp_then_lt_trans {l1 l2 l3 r1 r2 r3 : Regex}
    (ihl : Regex.cmp l1 l2 = .lt → Regex.cmp l2 l3 = .lt → Regex.cmp l1 l3 = .lt)
    (ihr : Regex.cmp r1 r2 = .lt → Regex.cmp r2 r3 = .lt → Regex.cmp r1 r3 = .lt)
    (h1 : (Regex.cmp l1 l2).then (Regex.cmp r1 r2) = .lt)
    (h2 : (Regex.cmp l2 l3).then (Regex.cmp r2 r3) = .lt) :
    (Regex.cmp l1 l3).then (Regex.cmp r1 r3) = .lt := by
  rw [Ordering.then_eq_lt] at h1 h2 ⊢
  rcases h1 with h1 | ⟨h1e, h1r⟩ <;> rcases h2 with h2 | ⟨h2e, h2r⟩
  · exact Or.inl (ihl h1 h2)
  · rw [cmp_eq_iff] at h2e; subst h2e; exact Or.inl h1
  · rw [cmp_eq_iff] at h1e; subst h1e; exact Or.inl h2
  · rw [cmp_eq_iff] at h1e h2e; subst h1e; subst h2e
    exact Or.inr ⟨cmp_refl _, ihr h1r h2r⟩

lemma cmp_lt_trans_concat {l1 r1 l2 r2 l3 r3 : Regex}
    (ihl : Regex.cmp l1 l2 = .lt → Regex.cmp l2 l3 = .lt → Regex.cmp l1 l3 = .lt)
    (ihr : Regex.cmp r1 r2 = .lt → Regex.cmp r2 r3 = .lt → Regex.cmp r1 r3 = .lt)
    (h1 : Regex.cmp (.Concat l1 r1) (.Concat l2 r2) = .lt)
    (h2 : Regex.cmp (.Concat l2 r2) (.Concat l3 r3) = .lt) :
    Regex.cmp (.Concat l1 r1) (.Concat l3 r3) = .lt :=
  cmp_then_lt_trans ihl ihr h1 h2

lemma cmp_lt_trans_or {l1 r1 l2 r2 l3 r3 : Regex}
    (ihl : Regex.cmp l1 l2 = .lt → Regex.cmp l2 l3 = .lt → Regex.cmp l1 l3 = .lt)
    (ihr : Regex.cmp r1 r2 = .lt → Regex.cmp r2 r3 = .lt → Regex.cmp r1 r3 = .lt)
    (h1 : Regex.cmp (.Or l1 r1) (.Or l2 r2) = .lt)
    (h2 : Regex.cmp (.Or l2 r2) (.Or l3 r3) = .lt) :
    Regex.cmp (.Or l1 r1) (.Or l3 r3) = .lt :=
  cmp_then_lt_trans ihl ihr h1 h2

lemma cmp_lt_trans_and {l1 r1 l2 r2 l3 r3 : Regex}
    (ihl : Regex.cmp l1 l2 = .lt → Regex.cmp l2 l3 = .lt → Regex.cmp l1 l3 = .lt)
    (ihr : Regex.cmp r1 r2 = .lt → Regex.cmp r2 r3 = .lt → Regex.cmp r1 r3 = .lt)
    (h1 : Regex.cmp (.And l1 r1) (.And l2 r2) = .lt)
    (h2 : Regex.cmp (.And l2 r2) (.And l3 r3) = .lt) :
    Regex.cmp (.And l1 r1) (.And l3 r3) = .lt :=
  cmp_then_lt_trans ihl ihr h1 h2

lemma cmp_lt_trans_closure {i j k : Regex}
    (ih : Regex.cmp i j = .lt → Regex.cmp j k = .lt → Regex.cmp i k = .lt)
    (h1 : Regex.cmp (.Closure i) (.Closure j) = .lt)
    (h2 : Regex.cmp (.Closure j) (.Closure k) = .lt) :
    Regex.cmp (.Closure i) (.Closure k) = .lt := ih h1 h2

lemma cmp_lt_trans_complement {i j k : Regex}
    (ih : Regex.cmp i j = .lt → Regex.cmp j k = .lt → Regex.cmp i k = .lt)
    (h1 : Regex.cmp (.Complement i) (.Complement j) = .lt)
    (h2 : Regex.cmp (.Complement j) (.Complement k) = .lt) :
    Regex.cmp (.Complement i) (.Complement k) = .lt := ih h1 h2

lemma cmp_lt_trans : ∀ (x y z : Regex),
    Regex.cmp x y = .lt → Regex.cmp y z = .lt → Regex.cmp x z = .lt
  | x, y, z => by
    cases x <;> cases y <;> cases z <;> intro h1 h2 <;>
      first
        | rfl
        | exact Ordering.noConfusion h1
        | exact Ordering.noConfusion h2
        | exact cmp_lt_trans_symbol h1 h2
        | exact cmp_lt_trans_concat (cmp_lt_trans _ _ _) (cmp_lt_trans _ _ _) h1 h2
        | exact cmp_lt_trans_or (cmp_lt_trans _ _ _) (cmp_lt_trans _ _ _) h1 h2
        | exact cmp_lt_trans_and (cmp_lt_trans _ _ _) (cmp_lt_trans _ _ _) h1 h2
        | exact cmp_lt_trans_closure (cmp_lt_trans _ _ _) h1 h2
        | exact cmp_lt_trans_complement (cmp_lt_trans _ _ _) h1 h2

/-- The strict version of the term order. -/
def rlt (l r : Regex) : Prop := Regex.cmp l r = Ordering.lt

instance : IsTotal Regex rle :=
  ⟨fun x y => by
    unfold rle
    rcases h : Regex.cmp x y with _ | _ | _
    · exact Or.inl (by simp [h])
    · exact Or.inl (by simp [h])
    · refine Or.inr ?_
      have := regex_cmp_swap x y
      rw [h] at this
      rw [← this]
      decide⟩

instance : IsTrans Regex rle :=
  ⟨fun x y z hxy hyz => by
    unfold rle at *
    rcases h1 : Regex.cmp x y with _ | _ | _
    · rcases h2 : Regex.cmp y z with _ | _ | _
      · simp [cmp_lt_trans x y z h1 h2]
      · rw [cmp_eq_iff] at h2; subst h2; simp [h1]
      · exact absurd h2 hyz
    · rw [cmp_eq_iff] at h1; subst h1; exact hyz
    · exact absurd h1 hxy⟩

instance : IsAntisymm Regex rle :=
  ⟨fun x y hxy hyx => by
    unfold rle at *
    rcases h1 : Regex.cmp x y with _ | _ | _
    · have := regex_cmp_swap x y
      rw [h1] at this
      exact absurd this.symm hyx
    · exact (cmp_eq_iff x y).mp h1
    · exact absurd h1 hxy⟩

lemma rlt_irrefl (x : Regex) : ¬ rlt x x := by
  unfold rlt
  rw [cmp_refl]
  simp

lemma rlt_asymm {x y : Regex} (h : rlt x y) : ¬ rlt y x := by
  unfold rlt at *
  intro h2
  have := regex_cmp_swap x y
  rw [h, h2] at this
  exact Ordering.noConfusion this

lemma rlt_of_rle_of_ne {x y : Regex} (h : rle x y) (hne : x ≠ y) : rlt x y := by
  unfold rle at h
  unfold rlt
  rcases h1 : Regex.cmp x y with _ | _ | _
  · rfl
  · exact absurd ((cmp_eq_iff x y).mp h1) hne
  · exact absurd h1 h

lemma rlt_trans {x y z : Regex} (h1 : rlt x y) (h2 : rlt y z) : rlt x z :=
  cmp_lt_trans x y z h1 h2

lemma rle_of_rlt {x y : Regex} (h : rlt x y) : rle x y := by
  unfold rlt at h
  unfold rle
  simp [h]

lemma sorted_sortOps (l : List Regex) : List.Sorted rle (sortOps l) :=
  List.sorted_insertionSort rle l

lemma mem_sortOps {l : List Regex} {x : Regex} : x ∈ sortOps l ↔ x ∈ l :=
  (List.perm_insertionSort rle l).mem_iff

lemma mem_dedupAdj : ∀ {l : List Regex} {x : Regex}, x ∈ dedupAdj l ↔ x ∈ l
  | [], _ => Iff.rfl
  | [a], _ => Iff.rfl
  | a :: b :: t, x => by
    rw [dedupAdj]
    split_ifs with h
    · subst h
      rw [mem_dedupAdj]
      simp
    · rw [List.mem_cons, mem_dedupAdj]
      simp

/-- Removing adjacent duplicates from an `rle`-sorted list yields a strictly
sorted list. -/
lemma pairwise_dedupAdj : ∀ l : List Regex,
    List.Sorted rle l → List.Pairwise rlt (dedupAdj l)
  | [], _ => List.Pairwise.nil
  | [a], _ => by simp [dedupAdj]
  | a :: b :: t, h => by
    rw [dedupAdj]
    have htail : List.Sorted rle (b :: t) := h.of_cons
    split_ifs with hab
    · exact pairwise_dedupAdj (b :: t) htail
    · refine List.Pairwise.cons ?_ (pairwise_dedupAdj (b :: t) htail)
      intro c hc
      have hcmem : c ∈ b :: t := mem_dedupAdj.mp hc
      have hac : rle a c := (List.sorted_cons.mp h).1 c hcmem
      refine rlt_of_rle_of_ne hac ?_
      rintro rfl
      rcases List.mem_cons.mp hcmem with h' | h'
      · exact hab h'
      · have hba : rle b a := (List.sorted_cons.mp htail).1 a h'
        have hab' : rle a b := (List.sorted_cons.mp h).1 b (by simp)
        exact hab (antisymm hab' hba)

/-- Two strictly sorted lists with the same members are equal. -/
lemma strictSorted_eq_of_mem_iff :
    ∀ (l₁ l₂ : List Regex), List.Pairwise rlt l₁ → List.Pairwise rlt l₂ →
      (∀ x, x ∈ l₁ ↔ x ∈ l₂) → l₁ = l₂
  | [], [], _, _, _ => rfl
  | [], b :: t₂, _, _, hm => absurd ((hm b).mpr (by simp)) (by simp)
  | a :: t₁, [], _, _, hm => absurd ((hm a).mp (by simp)) (by simp)
  | a :: t₁, b :: t₂, h₁, h₂, hm => by
    obtain ⟨ha, h₁'⟩ := List.pairwise_cons.mp h₁
    obtain ⟨hb, h₂'⟩ := List.pairwise_cons.mp h₂
    have hab : a = b := by
      rcases List.mem_cons.mp ((hm a).mp (by simp)) with h | h
      · exact h
      · rcases List.mem_cons.mp ((hm b).mpr (by simp)) with h' | h'
        · exact h'.symm
        · exact absurd (hb a h) (fun hc => rlt_asymm hc (ha b h'))
    subst hab
    have hm' : ∀ x, x ∈ t₁ ↔ x ∈ t₂ := by
      intro x
      constructor
      · intro hx
        rcases List.mem_cons.mp ((hm x).mp (by simp [hx])) with h | h
        · subst h; exact absurd (ha x hx) (rlt_irrefl x)
        · exact h
      · intro hx
        rcases List.mem_cons.mp ((hm x).mpr (by simp [hx])) with h | h
        · subst h; exact absurd (hb x hx) (rlt_irrefl x)
        · exact h
    rw [strictSorted_eq_of_mem_iff t₁ t₂ h₁' h₂' hm']

/-- Sorting twice (or sorting an already sorted list) changes nothing. -/
lemma sortOps_sorted_eq {l : List Regex} (h : List.Sorted rle l) :
    sortOps l = l :=
  List.Sorted.insertionSort_eq h

/-- A strictly sorted list has no adjacent duplicates. -/
lemma dedupAdj_pairwise_eq : ∀ {l : List Regex}, List.Pairwise rlt l → dedupAdj l = l
  | [], _ => rfl
  | [a], _ => rfl
  | a :: b :: t, h => by
    rw [dedupAdj]
    have hne : a ≠ b := by
      rintro rfl
      exact rlt_irrefl a ((List.pairwise_cons.mp h).1 a (by simp))
    rw [if_neg hne, dedupAdj_pairwise_eq h.of_cons]

/-! ## The approximately-similar canonical form invariant

`isCanonical` captures the shape of terms produced by the canonicalizing
builder: `Or`/`And` chains are left-nested, strictly sorted by `cmp` and
free of `∅` and `!∅` operands, `Concat` chains are left-nested and free of
`∅`/`ε` operands, closures are not directly nested and not built on `∅`/`ε`,
and complements are not directly nested. -/

namespace Regex

def isOrNode : Regex → Bool
  | .Or _ _ => true
  | _ => false

def isAndNode : Regex → Bool
  | .And _ _ => true
  | _ => false

def isConcatNode : Regex → Bool
  | .Concat _ _ => true
  | _ => false

def isClosureNode : Regex → Bool
  | .Closure _ => true
  | _ => false

def isComplementNode : Regex → Bool
  | .Complement _ => true
  | _ => false

/-- The last (rightmost) operand of an or-chain. -/
def lastOr : Regex → Regex
  | .Or _ value => value
  | r => r

/-- The last (rightmost) operand of an and-chain. -/
def lastAnd : Regex → Regex
  | .And _ value => value
  | r => r

end Regex

instance : DecidableRel rlt := fun l r => by unfold rlt; infer_instance

def isCanonical : Regex → Bool
  | .EmptySet => true
  | .EmptyString => true
  | .Symbol _ => true
  | .Concat left right =>
    isCanonical left && isCanonical right &&
    !decide (left = .EmptySet) && !decide (left = .EmptyString) &&
    !decide (right = .EmptySet) && !decide (right = .EmptyString) &&
    !right.isConcatNode
  | .Closure inner =>
    isCanonical inner && !decide (inner = .EmptySet) &&
    !decide (inner = .EmptyString) && !inner.isClosureNode
  | .Or left right =>
    isCanonical left && isCanonical right &&
    !decide (left = .EmptySet) && !left.isEmptySetComplement &&
    !decide (right = .EmptySet) && !right.isEmptySetComplement &&
    !right.isOrNode && decide (rlt left.lastOr right)
  | .And left right =>
    isCanonical left && isCanonical right &&
    !decide (left = .EmptySet) && !left.isEmptySetComplement &&
    !decide (right = .EmptySet) && !right.isEmptySetComplement &&
    !right.isAndNode && decide (rlt left.lastAnd right)
  | .Complement inner => isCanonical inner && !inner.isComplementNode

lemma canon_concat_iff {l v : Regex} :
    isCanonical (.Concat l v) = true ↔
      isCanonical l = true ∧ isCanonical v = true ∧
      l ≠ .EmptySet ∧ l ≠ .EmptyString ∧
      v ≠ .EmptySet ∧ v ≠ .EmptyString ∧ v.isConcatNode = false := by
  simp only [isCanonical, Bool.and_eq_true, Bool.not_eq_true',
             decide_eq_false_iff_not]
  tauto

lemma canon_closure_iff {i : Regex} :
    isCanonical (.Closure i) = true ↔
      isCanonical i = true ∧ i ≠ .EmptySet ∧ i ≠ .EmptyString ∧
      i.isClosureNode = false := by
  simp only [isCanonical, Bool.and_eq_true, Bool.not_eq_true',
             decide_eq_false_iff_not]
  tauto

lemma canon_or_iff {l v : Regex} :
    isCanonical (.Or l v) = true ↔
      isCanonical l = true ∧ isCanonical v = true ∧
      l ≠ .EmptySet ∧ l.isEmptySetComplement = false ∧
      v ≠ .EmptySet ∧ v.isEmptySetComplement = false ∧
      v.isOrNode = false ∧ rlt l.lastOr v := by
  simp only [isCanonical, Bool.and_eq_true, Bool.not_eq_true',
             decide_eq_false_iff_not, decide_eq_true_eq]
  tauto

lemma canon_and_iff {l v : Regex} :
    isCanonical (.And l v) = true ↔
      isCanonical l = true ∧ isCanonical v = true ∧
      l ≠ .EmptySet ∧ l.isEmptySetComplement = false ∧
      v ≠ .EmptySet ∧ v.isEmptySetComplement = false ∧
      v.isAndNode = false ∧ rlt l.lastAnd v := by
  simp only [isCanonical, Bool.and_eq_true, Bool.not_eq_true',
             decide_eq_false_iff_not, decide_eq_true_eq]
  tauto

lemma canon_complement_iff {i : Regex} :
    isCanonical (.Complement i) = true ↔
      isCanonical i = true ∧ i.isComplementNode = false := by
  simp only [isCanonical, Bool.and_eq_true, Bool.not_eq_true']

lemma rle_refl (x : Regex) : rle x x := by
  unfold rle
  rw [cmp_refl]
  simp

/-! ## Or-chain structure of canonical terms -/

lemma rle_rlt_trans {x last v : Regex} (hxl : rle x last) (hlv : rlt last v) :
    rlt x v := by
  unfold rle at hxl
  rcases h : Regex.cmp x last with _ | _ | _
  · exact rlt_trans h hlv
  · rw [cmp_eq_iff] at h; subst h; exact hlv
  · exact absurd h hxl

lemma orOps_single {r : Regex} (h : r.isOrNode = false) : r.orOps = [r] := by
  cases r <;> first | rfl | exact absurd h (by simp [Regex.isOrNode])

lemma lastOr_single {r : Regex} (h : r.isOrNode = false) : r.lastOr = r := by
  cases r <;> first | rfl | exact absurd h (by simp [Regex.isOrNode])

lemma orOps_pairwise_last_single (r : Regex) (h : r.isOrNode = false) :
    List.Pairwise rlt r.orOps ∧ ∀ x ∈ r.orOps, rle x r.lastOr := by
  rw [orOps_single h, lastOr_single h]
  refine ⟨List.pairwise_singleton _ _, ?_⟩
  intro x hx
  rw [List.mem_singleton] at hx
  subst hx
  exact rle_refl _

lemma orOps_pairwise_last : ∀ r : Regex, isCanonical r = true →
    List.Pairwise rlt r.orOps ∧ ∀ x ∈ r.orOps, rle x r.lastOr
  | .Or l v, h => by
    obtain ⟨hl, _, _, _, _, _, _, hlast⟩ := canon_or_iff.mp h
    obtain ⟨ihPW, ihLast⟩ := orOps_pairwise_last l hl
    have hops : (Regex.Or l v).orOps = l.orOps ++ [v] := rfl
    constructor
    · rw [hops, List.pairwise_append]
      refine ⟨ihPW, List.pairwise_singleton _ _, ?_⟩
      intro x hx y hy
      rw [List.mem_singleton] at hy
      subst hy
      exact rle_rlt_trans (ihLast x hx) hlast
    · intro x hx
      rw [hops, List.mem_append] at hx
      show rle x v
      rcases hx with hx | hx
      · exact rle_of_rlt (rle_rlt_trans (ihLast x hx) hlast)
      · rw [List.mem_singleton] at hx; subst hx; exact rle_refl _
  | .EmptySet, _ => orOps_pairwise_last_single _ rfl
  | .EmptyString, _ => orOps_pairwise_last_single _ rfl
  | .Symbol _, _ => orOps_pairwise_last_single _ rfl
  | .Concat _ _, _ => orOps_pairwise_last_single _ rfl
  | .Closure _, _ => orOps_pairwise_last_single _ rfl
  | .And _ _, _ => orOps_pairwise_last_single _ rfl
  | .Complement _, _ => orOps_pairwise_last_single _ rfl

lemma orOps_conds_single {r : Regex} (hOr : r.isOrNode = false)
    (h : isCanonical r = true) (h0 : r ≠ .EmptySet)
    (hc : r.isEmptySetComplement = false) :
    ∀ x ∈ r.orOps, isCanonical x = true ∧ x.isOrNode = false ∧
      x ≠ .EmptySet ∧ x.isEmptySetComplement = false := by
  rw [orOps_single hOr]
  intro x hx
  rw [List.mem_singleton] at hx
  subst hx
  exact ⟨h, hOr, h0, hc⟩

lemma orOps_conds : ∀ r : Regex, isCanonical r = true → r ≠ .EmptySet →
    r.isEmptySetComplement = false →
    ∀ x ∈ r.orOps, isCanonical x = true ∧ x.isOrNode = false ∧
      x ≠ .EmptySet ∧ x.isEmptySetComplement = false
  | .Or l v, h, _, _ => by
    obtain ⟨hl, hv, hl0, hlc, hv0, hvc, hvOr, _⟩ := canon_or_iff.mp h
    intro x hx
    have hx' : x ∈ l.orOps ++ [v] := hx
    rw [List.mem_append] at hx'
    rcases hx' with hx' | hx'
    · exact orOps_conds l hl hl0 hlc x hx'
    · rw [List.mem_singleton] at hx'; subst hx'; exact ⟨hv, hvOr, hv0, hvc⟩
  | .EmptySet, _, h0, _ => absurd rfl h0
  | .EmptyString, h, h0, hc => orOps_conds_single rfl h h0 hc
  | .Symbol _, h, h0, hc => orOps_conds_single rfl h h0 hc
  | .Concat _ _, h, h0, hc => orOps_conds_single rfl h h0 hc
  | .Closure _, h, h0, hc => orOps_conds_single rfl h h0 hc
  | .And _ _, h, h0, hc => orOps_conds_single rfl h h0 hc
  | .Complement _, h, h0, hc => orOps_conds_single rfl h h0 hc

lemma foldOr_append_last (L : List Regex) (v : Regex) (h : L ≠ []) :
    foldOr (L ++ [v]) = .Or (foldOr L) v := by
  cases L with
  | nil => exact absurd rfl h
  | cons x xs => simp [foldOr, List.foldl_append]

lemma foldOr_orOps : ∀ r : Regex, foldOr r.orOps = r
  | .Or l v => by
    have hops : (Regex.Or l v).orOps = l.orOps ++ [v] := rfl
    rw [hops, foldOr_append_last _ _ (orOps_ne_nil l), foldOr_orOps l]
  | .EmptySet => rfl
  | .EmptyString => rfl
  | .Symbol _ => rfl
  | .Concat _ _ => rfl
  | .Closure _ => rfl
  | .And _ _ => rfl
  | .Complement _ => rfl

lemma orOps_foldOr : ∀ L : List Regex, (∀ x ∈ L, x.isOrNode = false) →
    L ≠ [] → (foldOr L).orOps = L := by
  intro L
  induction L using List.reverseRecOn with
  | nil => intro _ h; exact absurd rfl h
  | append_singleton M v ih =>
    intro hall _
    cases M with
    | nil => exact orOps_single (hall v (by simp))
    | cons m ms =>
      rw [foldOr_append_last _ _ (by simp)]
      have hops : (Regex.Or (foldOr (m :: ms)) v).orOps
          = (foldOr (m :: ms)).orOps ++ [v] := rfl
      rw [hops, ih (fun x hx => hall x (List.mem_append_left [v] hx)) (by simp)]

lemma isCanonical_foldOr : ∀ L : List Regex,
    List.Pairwise rlt L →
    (∀ x ∈ L, isCanonical x = true ∧ x.isOrNode = false ∧
      x ≠ .EmptySet ∧ x.isEmptySetComplement = false) →
    L ≠ [] →
    isCanonical (foldOr L) = true ∧ foldOr L ≠ .EmptySet ∧
      (foldOr L).isEmptySetComplement = false ∧
      ∀ v, L.getLast? = some v → (foldOr L).lastOr = v := by
  intro L
  induction L using List.reverseRecOn with
  | nil => intro _ _ h; exact absurd rfl h
  | append_singleton M v ih =>
    intro hpw hall _
    obtain ⟨hc, hor, h0, hcf⟩ := hall v (by simp)
    cases M with
    | nil =>
      refine ⟨hc, h0, hcf, ?_⟩
      intro u hu
      rw [List.getLast?_concat] at hu
      have h' : v = u := Option.some.inj hu
      subst h'
      exact lastOr_single hor
    | cons m ms =>
      have hMne : (m :: ms : List Regex) ≠ [] := by simp
      obtain ⟨ihc, ih0, ihcf, ihlast⟩ := ih
        (List.Pairwise.sublist (List.sublist_append_left _ _) hpw)
        (fun x hx => hall x (List.mem_append_left [v] hx))
        hMne
      obtain ⟨u, hu⟩ : ∃ u, (m :: ms).getLast? = some u :=
        ⟨(m :: ms).getLast hMne, List.getLast?_eq_getLast _ _⟩
      have humem : u ∈ m :: ms := List.mem_of_mem_getLast? hu
      have huv : rlt u v :=
        (List.pairwise_append.mp hpw).2.2 u humem v (by simp)
      rw [foldOr_append_last _ _ hMne]
      refine ⟨?_, fun h' => Regex.noConfusion h', rfl, ?_⟩
      · rw [canon_or_iff]
        exact ⟨ihc, hc, ih0, ihcf, h0, hcf, hor, by rw [ihlast u hu]; exact huv⟩
      · intro w hw
        rw [List.getLast?_concat] at hw
        have h' : v = w := Option.some.inj hw
        subst h'
        rfl

/-! ## Behaviour of `ASC.or` on canonical operands -/

lemma ASC.or_fallthrough {l r : Regex} (hl0 : l ≠ .EmptySet) (hr0 : r ≠ .EmptySet)
    (hlc : l.isEmptySetComplement = false) (hrc : r.isEmptySetComplement = false) :
    ASC.or l r = foldOr (dedupAdj (sortOps (l.orOps ++ r.orOps))) := by
  unfold ASC.or
  rw [if_neg hl0, if_neg hr0, if_neg (by simp [hlc]), if_neg (by simp [hrc])]

lemma ASC.or_empty_left (r : Regex) : ASC.or .EmptySet r = r := by
  unfold ASC.or
  rw [if_pos rfl]

lemma ASC.or_empty_right (l : Regex) : ASC.or l .EmptySet = l := by
  by_cases h : l = .EmptySet
  · subst h; exact ASC.or_empty_left _
  · unfold ASC.or
    rw [if_neg h, if_pos rfl]

lemma ASC.or_escompl_left (r : Regex) :
    ASC.or (.Complement .EmptySet) r = .Complement .EmptySet := by
  by_cases h : r = .EmptySet
  · subst h; exact ASC.or_empty_right _
  · unfold ASC.or
    rw [if_neg (fun hc => Regex.noConfusion hc), if_neg h,
        if_pos (show Regex.isEmptySetComplement (.Complement .EmptySet) = true from rfl)]
    rfl

lemma ASC.or_escompl_right (l : Regex) :
    ASC.or l (.Complement .EmptySet) = .Complement .EmptySet := by
  by_cases h : l = .EmptySet
  · subst h; exact ASC.or_empty_left _
  · by_cases hc : l.isEmptySetComplement = true
    · rw [(isEmptySetComplement_iff l).mp hc]
      exact ASC.or_escompl_left _
    · unfold ASC.or
      rw [if_neg h, if_neg (fun h' => Regex.noConfusion h'), if_neg hc,
          if_pos (show Regex.isEmptySetComplement (.Complement .EmptySet) = true from rfl)]
      rfl

/-- In the fall-through case, `ASC.or` of canonical operands is canonical,
its operand list is the sorted deduplication of the flattened operands, and
its members are exactly the operands of both sides. -/
lemma ASC.or_canonical {l r : Regex}
    (hl : isCanonical l = true) (hr : isCanonical r = true)
    (hl0 : l ≠ .EmptySet) (hr0 : r ≠ .EmptySet)
    (hlc : l.isEmptySetComplement = false) (hrc : r.isEmptySetComplement = false) :
    isCanonical (ASC.or l r) = true ∧ ASC.or l r ≠ .EmptySet ∧
      (ASC.or l r).isEmptySetComplement = false ∧
      (ASC.or l r).orOps = dedupAdj (sortOps (l.orOps ++ r.orOps)) ∧
      (∀ x, x ∈ (ASC.or l r).orOps ↔ x ∈ l.orOps ∨ x ∈ r.orOps) := by
  have hconds : ∀ x ∈ dedupAdj (sortOps (l.orOps ++ r.orOps)),
      isCanonical x = true ∧ x.isOrNode = false ∧
        x ≠ .EmptySet ∧ x.isEmptySetComplement = false := by
    intro x hx
    rw [mem_dedupAdj, mem_sortOps, List.mem_append] at hx
    rcases hx with hx | hx
    · exact orOps_conds l hl hl0 hlc x hx
    · exact orOps_conds r hr hr0 hrc x hx
  have hpw : List.Pairwise rlt (dedupAdj (sortOps (l.orOps ++ r.orOps))) :=
    pairwise_dedupAdj _ (sorted_sortOps _)
  have hne : dedupAdj (sortOps (l.orOps ++ r.orOps)) ≠ [] :=
    dedupAdj_ne_nil _ (sortOps_ne_nil _ (by simp [orOps_ne_nil]))
  obtain ⟨hc, h0, hcf, _⟩ := isCanonical_foldOr _ hpw hconds hne
  rw [ASC.or_fallthrough hl0 hr0 hlc hrc]
  refine ⟨hc, h0, hcf, ?_, ?_⟩
  · exact orOps_foldOr _ (fun x hx => (hconds x hx).2.1) hne
  · intro x
    rw [orOps_foldOr _ (fun x hx => (hconds x hx).2.1) hne,
        mem_dedupAdj, mem_sortOps, List.mem_append]

/-- `or(R, R) = R` for canonical `R`. -/
lemma ASC.or_idem {R : Regex} (h : isCanonical R = true) : ASC.or R R = R := by
  by_cases h0 : R = .EmptySet
  · subst h0; exact ASC.or_empty_left _
  by_cases hc : R.isEmptySetComplement = true
  · rw [(isEmptySetComplement_iff R).mp hc]
    exact ASC.or_escompl_left _
  have hcf : R.isEmptySetComplement = false := by simpa using hc
  rw [ASC.or_fallthrough h0 h0 hcf hcf]
  obtain ⟨hPW, _⟩ := orOps_pairwise_last R h
  have heq : dedupAdj (sortOps (R.orOps ++ R.orOps)) = R.orOps := by
    refine strictSorted_eq_of_mem_iff _ _
      (pairwise_dedupAdj _ (sorted_sortOps _)) hPW ?_
    intro x
    rw [mem_dedupAdj, mem_sortOps, List.mem_append]
    tauto
  rw [heq, foldOr_orOps]

/-- `or(A, B) = or(B, A)` for all operands. -/
lemma ASC.or_comm (A B : Regex) : ASC.or A B = ASC.or B A := by
  by_cases hA : A = .EmptySet
  · subst hA; rw [ASC.or_empty_left, ASC.or_empty_right]
  by_cases hB : B = .EmptySet
  · subst hB; rw [ASC.or_empty_left, ASC.or_empty_right]
  by_cases hAc : A.isEmptySetComplement = true
  · rw [(isEmptySetComplement_iff A).mp hAc, ASC.or_escompl_left,
        ASC.or_escompl_right]
  by_cases hBc : B.isEmptySetComplement = true
  · rw [(isEmptySetComplement_iff B).mp hBc, ASC.or_escompl_left,
        ASC.or_escompl_right]
  have hAcf : A.isEmptySetComplement = false := by simpa using hAc
  have hBcf : B.isEmptySetComplement = false := by simpa using hBc
  rw [ASC.or_fallthrough hA hB hAcf hBcf, ASC.or_fallthrough hB hA hBcf hAcf]
  congr 1
  refine strictSorted_eq_of_mem_iff _ _
    (pairwise_dedupAdj _ (sorted_sortOps _))
    (pairwise_dedupAdj _ (sorted_sortOps _)) ?_
  intro x
  rw [mem_dedupAdj, mem_sortOps, List.mem_append,
      mem_dedupAdj, mem_sortOps, List.mem_append]
  tauto

/-- `or(A, or(B, C)) = or(or(A, B), C)` for canonical operands. -/
lemma ASC.or_assoc {A B C : Regex} (hA : isCanonical A = true)
    (hB : isCanonical B = true) (hC : isCanonical C = true) :
    ASC.or A (ASC.or B C) = ASC.or (ASC.or A B) C := by
  by_cases hB0 : B = .EmptySet
  · subst hB0; rw [ASC.or_empty_left, ASC.or_empty_right]
  by_cases hC0 : C = .EmptySet
  · subst hC0; rw [ASC.or_empty_right, ASC.or_empty_right]
  by_cases hA0 : A = .EmptySet
  · subst hA0; rw [ASC.or_empty_left, ASC.or_empty_left]
  by_cases hAc : A.isEmptySetComplement = true
  · rw [(isEmptySetComplement_iff A).mp hAc, ASC.or_escompl_left,
        ASC.or_escompl_left, ASC.or_escompl_left]
  by_cases hBc : B.isEmptySetComplement = true
  · rw [(isEmptySetComplement_iff B).mp hBc, ASC.or_escompl_left,
        ASC.or_escompl_right, ASC.or_escompl_left]
  by_cases hCc : C.isEmptySetComplement = true
  · rw [(isEmptySetComplement_iff C).mp hCc, ASC.or_escompl_right,
        ASC.or_escompl_right, ASC.or_escompl_right]
  have hAcf : A.isEmptySetComplement = false := by simpa using hAc
  have hBcf : B.isEmptySetComplement = false := by simpa using hBc
  have hCcf : C.isEmptySetComplement = false := by simpa using hCc
  obtain ⟨hBCc, hBC0, hBCcf, _, hBCmem⟩ :=
    ASC.or_canonical hB hC hB0 hC0 hBcf hCcf
  obtain ⟨hABc, hAB0, hABcf, _, hABmem⟩ :=
    ASC.or_canonical hA hB hA0 hB0 hAcf hBcf
  rw [ASC.or_fallthrough hA0 hBC0 hAcf hBCcf,
      ASC.or_fallthrough hAB0 hC0 hABcf hCcf]
  congr 1
  refine strictSorted_eq_of_mem_iff _ _
    (pairwise_dedupAdj _ (sorted_sortOps _))
    (pairwise_dedupAdj _ (sorted_sortOps _)) ?_
  intro x
  rw [mem_dedupAdj, mem_sortOps, List.mem_append,
      mem_dedupAdj, mem_sortOps, List.mem_append, hBCmem, hABmem]
  tauto

/-! ## And-chain structure (dual to the or-chain) -/

lemma andOps_ne_nil' (r : Regex) : r.andOps ≠ [] := andOps_ne_nil r

lemma andOps_single {r : Regex} (h : r.isAndNode = false) : r.andOps = [r] := by
  cases r <;> first | rfl | exact absurd h (by simp [Regex.isAndNode])

lemma lastAnd_single {r : Regex} (h : r.isAndNode = false) : r.lastAnd = r := by
  cases r <;> first | rfl | exact absurd h (by simp [Regex.isAndNode])

lemma andOps_pairwise_last_single (r : Regex) (h : r.isAndNode = false) :
    List.Pairwise rlt r.andOps ∧ ∀ x ∈ r.andOps, rle x r.lastAnd := by
  rw [andOps_single h, lastAnd_single h]
  refine ⟨List.pairwise_singleton _ _, ?_⟩
  intro x hx
  rw [List.mem_singleton] at hx
  subst hx
  exact rle_refl _

lemma andOps_pairwise_last : ∀ r : Regex, isCanonical r = true →
    List.Pairwise rlt r.andOps ∧ ∀ x ∈ r.andOps, rle x r.lastAnd
  | .And l v, h => by
    obtain ⟨hl, _, _, _, _, _, _, hlast⟩ := canon_and_iff.mp h
    obtain ⟨ihPW, ihLast⟩ := andOps_pairwise_last l hl
    have hops : (Regex.And l v).andOps = l.andOps ++ [v] := rfl
    constructor
    · rw [hops, List.pairwise_append]
      refine ⟨ihPW, List.pairwise_singleton _ _, ?_⟩
      intro x hx y hy
      rw [List.mem_singleton] at hy
      subst hy
      exact rle_rlt_trans (ihLast x hx) hlast
    · intro x hx
      rw [hops, List.mem_append] at hx
      show rle x v
      rcases hx with hx | hx
      · exact rle_of_rlt (rle_rlt_trans (ihLast x hx) hlast)
      · rw [List.mem_singleton] at hx; subst hx; exact rle_refl _
  | .EmptySet, _ => andOps_pairwise_last_single _ rfl
  | .EmptyString, _ => andOps_pairwise_last_single _ rfl
  | .Symbol _, _ => andOps_pairwise_last_single _ rfl
  | .Concat _ _, _ => andOps_pairwise_last_single _ rfl
  | .Closure _, _ => andOps_pairwise_last_single _ rfl
  | .Or _ _, _ => andOps_pairwise_last_single _ rfl
  | .Complement _, _ => andOps_pairwise_last_single _ rfl

lemma andOps_conds_single {r : Regex} (hAnd : r.isAndNode = false)
    (h : isCanonical r = true) (h0 : r ≠ .EmptySet)
    (hc : r.isEmptySetComplement = false) :
    ∀ x ∈ r.andOps, isCanonical x = true ∧ x.isAndNode = false ∧
      x ≠ .EmptySet ∧ x.isEmptySetComplement = false := by
  rw [andOps_single hAnd]
  intro x hx
  rw [List.mem_singleton] at hx
  subst hx
  exact ⟨h, hAnd, h0, hc⟩

lemma andOps_conds : ∀ r : Regex, isCanonical r = true → r ≠ .EmptySet →
    r.isEmptySetComplement = false →
    ∀ x ∈ r.andOps, isCanonical x = true ∧ x.isAndNode = false ∧
      x ≠ .EmptySet ∧ x.isEmptySetComplement = false
  | .And l v, h, _, _ => by
    obtain ⟨hl, hv, hl0, hlc, hv0, hvc, hvAnd, _⟩ := canon_and_iff.mp h
    intro x hx
    have hx' : x ∈ l.andOps ++ [v] := hx
    rw [List.mem_append] at hx'
    rcases hx' with hx' | hx'
    · exact andOps_conds l hl hl0 hlc x hx'
    · rw [List.mem_singleton] at hx'; subst hx'; exact ⟨hv, hvAnd, hv0, hvc⟩
  | .EmptySet, _, h0, _ => absurd rfl h0
  | .EmptyString, h, h0, hc => andOps_conds_single rfl h h0 hc
  | .Symbol _, h, h0, hc => andOps_conds_single rfl h h0 hc
  | .Concat _ _, h, h0, hc => andOps_conds_single rfl h h0 hc
  | .Closure _, h, h0, hc => andOps_conds_single rfl h h0 hc
  | .Or _ _, h, h0, hc => andOps_conds_single rfl h h0 hc
  | .Complement _, h, h0, hc => andOps_conds_single rfl h h0 hc

lemma foldAnd_append_last (L : List Regex) (v : Regex) (h : L ≠ []) :
    foldAnd (L ++ [v]) = .And (foldAnd L) v := by
  cases L with
  | nil => exact absurd rfl h
  | cons x xs => simp [foldAnd, List.foldl_append]

lemma foldAnd_andOps : ∀ r : Regex, foldAnd r.andOps = r
  | .And l v => by
    have hops : (Regex.And l v).andOps = l.andOps ++ [v] := rfl
    rw [hops, foldAnd_append_last _ _ (andOps_ne_nil l), foldAnd_andOps l]
  | .EmptySet => rfl
  | .EmptyString => rfl
  | .Symbol _ => rfl
  | .Concat _ _ => rfl
  | .Closure _ => rfl
  | .Or _ _ => rfl
  | .Complement _ => rfl

lemma andOps_foldAnd : ∀ L : List Regex, (∀ x ∈ L, x.isAndNode = false) →
    L ≠ [] → (foldAnd L).andOps = L := by
  intro L
  induction L using List.reverseRecOn with
  | nil => intro _ h; exact absurd rfl h
  | append_singleton M v ih =>
    intro hall _
    cases M with
    | nil => exact andOps_single (hall v (by simp))
    | cons m ms =>
      rw [foldAnd_append_last _ _ (by simp)]
      have hops : (Regex.And (foldAnd (m :: ms)) v).andOps
          = (foldAnd (m :: ms)).andOps ++ [v] := rfl
      rw [hops, ih (fun x hx => hall x (List.mem_append_left [v] hx)) (by simp)]

lemma isCanonical_foldAnd : ∀ L : List Regex,
    List.Pairwise rlt L →
    (∀ x ∈ L, isCanonical x = true ∧ x.isAndNode = false ∧
      x ≠ .EmptySet ∧ x.isEmptySetComplement = false) →
    L ≠ [] →
    isCanonical (foldAnd L) = true ∧ foldAnd L ≠ .EmptySet ∧
      (foldAnd L).isEmptySetComplement = false ∧
      ∀ v, L.getLast? = some v → (foldAnd L).lastAnd = v := by
  intro L
  induction L using List.reverseRecOn with
  | nil => intro _ _ h; exact absurd rfl h
  | append_singleton M v ih =>
    intro hpw hall _
    obtain ⟨hc, hand, h0, hcf⟩ := hall v (by simp)
    cases M with
    | nil =>
      refine ⟨hc, h0, hcf, ?_⟩
      intro u hu
      rw [List.getLast?_concat] at hu
      have h' : v = u := Option.some.inj hu
      subst h'
      exact lastAnd_single hand
    | cons m ms =>
      have hMne : (m :: ms : List Regex) ≠ [] := by simp
      obtain ⟨ihc, ih0, ihcf, ihlast⟩ := ih
        (List.Pairwise.sublist (List.sublist_append_left _ _) hpw)
        (fun x hx => hall x (List.mem_append_left [v] hx))
        hMne
      obtain ⟨u, hu⟩ : ∃ u, (m :: ms).getLast? = some u :=
        ⟨(m :: ms).getLast hMne, List.getLast?_eq_getLast _ _⟩
      have humem : u ∈ m :: ms := List.mem_of_mem_getLast? hu
      have huv : rlt u v :=
        (List.pairwise_append.mp hpw).2.2 u humem v (by simp)
      rw [foldAnd_append_last _ _ hMne]
      refine ⟨?_, fun h' => Regex.noConfusion h', rfl, ?_⟩
      · rw [canon_and_iff]
        exact ⟨ihc, hc, ih0, ihcf, h0, hcf, hand, by rw [ihlast u hu]; exact huv⟩
      · intro w hw
        rw [List.getLast?_concat] at hw
        have h' : v = w := Option.some.inj hw
        subst h'
        rfl

lemma ASC.and_fallthrough {l r : Regex} (hl0 : l ≠ .EmptySet) (hr0 : r ≠ .EmptySet)
    (hlc : l.isEmptySetComplement = false) (hrc : r.isEmptySetComplement = false) :
    ASC.and l r = foldAnd (dedupAdj (sortOps (l.andOps ++ r.andOps))) := by
  unfold ASC.and
  rw [if_neg (by tauto), if_neg (by simp [hlc]), if_neg (by simp [hrc])]

lemma ASC.and_empty_left (r : Regex) : ASC.and .EmptySet r = .EmptySet := by
  unfold ASC.and
  rw [if_pos (Or.inl rfl)]
  rfl

lemma ASC.and_empty_right (l : Regex) : ASC.and l .EmptySet = .EmptySet := by
  unfold ASC.and
  rw [if_pos (Or.inr rfl)]
  rfl

lemma ASC.and_escompl_left (r : Regex) :
    ASC.and (.Complement .EmptySet) r = r := by
  by_cases h : r = .EmptySet
  · subst h; exact ASC.and_empty_right _
  · unfold ASC.and
    rw [if_neg (by rintro (hc | hc); exacts [Regex.noConfusion hc, h hc]),
        if_pos (show Regex.isEmptySetComplement (.Complement .EmptySet) = true from rfl)]

lemma ASC.and_escompl_right (l : Regex) :
    ASC.and l (.Complement .EmptySet) = l := by
  by_cases h : l = .EmptySet
  · subst h; exact ASC.and_empty_left _
  · by_cases hc : l.isEmptySetComplement = true
    · rw [(isEmptySetComplement_iff l).mp hc]
      exact ASC.and_escompl_left _
    · unfold ASC.and
      rw [if_neg (by rintro (hc' | hc'); exacts [h hc', Regex.noConfusion hc']),
          if_neg hc,
          if_pos (show Regex.isEmptySetComplement (.Complement .EmptySet) = true from rfl)]

lemma ASC.and_canonical {l r : Regex}
    (hl : isCanonical l = true) (hr : isCanonical r = true)
    (hl0 : l ≠ .EmptySet) (hr0 : r ≠ .EmptySet)
    (hlc : l.isEmptySetComplement = false) (hrc : r.isEmptySetComplement = false) :
    isCanonical (ASC.and l r) = true ∧ ASC.and l r ≠ .EmptySet ∧
      (ASC.and l r).isEmptySetComplement = false ∧
      (ASC.and l r).andOps = dedupAdj (sortOps (l.andOps ++ r.andOps)) ∧
      (∀ x, x ∈ (ASC.and l r).andOps ↔ x ∈ l.andOps ∨ x ∈ r.andOps) := by
  have hconds : ∀ x ∈ dedupAdj (sortOps (l.andOps ++ r.andOps)),
      isCanonical x = true ∧ x.isAndNode = false ∧
        x ≠ .EmptySet ∧ x.isEmptySetComplement = false := by
    intro x hx
    rw [mem_dedupAdj, mem_sortOps, List.mem_append] at hx
    rcases hx with hx | hx
    · exact andOps_conds l hl hl0 hlc x hx
    · exact andOps_conds r hr hr0 hrc x hx
  have hpw : List.Pairwise rlt (dedupAdj (sortOps (l.andOps ++ r.andOps))) :=
    pairwise_dedupAdj _ (sorted_sortOps _)
  have hne : dedupAdj (sortOps (l.andOps ++ r.andOps)) ≠ [] :=
    dedupAdj_ne_nil _ (sortOps_ne_nil _ (by simp [andOps_ne_nil]))
  obtain ⟨hc, h0, hcf, _⟩ := isCanonical_foldAnd _ hpw hconds hne
  rw [ASC.and_fallthrough hl0 hr0 hlc hrc]
  refine ⟨hc, h0, hcf, ?_, ?_⟩
  · exact andOps_foldAnd _ (fun x hx => (hconds x hx).2.1) hne
  · intro x
    rw [andOps_foldAnd _ (fun x hx => (hconds x hx).2.1) hne,
        mem_dedupAdj, mem_sortOps, List.mem_append]

/-! ## Concat-chain structure -/

lemma concatOps_single {r : Regex} (h : r.isConcatNode = false) :
    r.concatOps = [r] := by
  cases r <;> first | rfl | exact absurd h (by simp [Regex.isConcatNode])

lemma concatOps_conds_single {r : Regex} (hC : r.isConcatNode = false)
    (h : isCanonical r = true) (h0 : r ≠ .EmptySet) (hE : r ≠ .EmptyString) :
    ∀ x ∈ r.concatOps, isCanonical x = true ∧ x.isConcatNode = false ∧
      x ≠ .EmptySet ∧ x ≠ .EmptyString := by
  rw [concatOps_single hC]
  intro x hx
  rw [List.mem_singleton] at hx
  subst hx
  exact ⟨h, hC, h0, hE⟩

lemma concatOps_conds : ∀ r : Regex, isCanonical r = true → r ≠ .EmptySet →
    r ≠ .EmptyString →
    ∀ x ∈ r.concatOps, isCanonical x = true ∧ x.isConcatNode = false ∧
      x ≠ .EmptySet ∧ x ≠ .EmptyString
  | .Concat l v, h, _, _ => by
    obtain ⟨hl, hv, hl0, hlE, hv0, hvE, hvC⟩ := canon_concat_iff.mp h
    intro x hx
    have hx' : x ∈ l.concatOps ++ [v] := hx
    rw [List.mem_append] at hx'
    rcases hx' with hx' | hx'
    · exact concatOps_conds l hl hl0 hlE x hx'
    · rw [List.mem_singleton] at hx'; subst hx'; exact ⟨hv, hvC, hv0, hvE⟩
  | .EmptySet, _, h0, _ => absurd rfl h0
  | .EmptyString, _, _, hE => absurd rfl hE
  | .Symbol _, h, h0, hE => concatOps_conds_single rfl h h0 hE
  | .Closure _, h, h0, hE => concatOps_conds_single rfl h h0 hE
  | .Or _ _, h, h0, hE => concatOps_conds_single rfl h h0 hE
  | .And _ _, h, h0, hE => concatOps_conds_single rfl h h0 hE
  | .Complement _, h, h0, hE => concatOps_conds_single rfl h h0 hE

lemma foldConcat_append_last (L : List Regex) (v : Regex) (h : L ≠ []) :
    foldConcat (L ++ [v]) = .Concat (foldConcat L) v := by
  cases L with
  | nil => exact absurd rfl h
  | cons x xs => simp [foldConcat, List.foldl_append]

lemma foldConcat_concatOps : ∀ r : Regex, foldConcat r.concatOps = r
  | .Concat l v => by
    have hops : (Regex.Concat l v).concatOps = l.concatOps ++ [v] := rfl
    rw [hops, foldConcat_append_last _ _ (concatOps_ne_nil l),
        foldConcat_concatOps l]
  | .EmptySet => rfl
  | .EmptyString => rfl
  | .Symbol _ => rfl
  | .Closure _ => rfl
  | .Or _ _ => rfl
  | .And _ _ => rfl
  | .Complement _ => rfl

lemma concatOps_foldConcat : ∀ L : List Regex,
    (∀ x ∈ L, x.isConcatNode = false) → L ≠ [] →
    (foldConcat L).concatOps = L := by
  intro L
  induction L using List.reverseRecOn with
  | nil => intro _ h; exact absurd rfl h
  | append_singleton M v ih =>
    intro hall _
    cases M with
    | nil => exact concatOps_single (hall v (by simp))
    | cons m ms =>
      rw [foldConcat_append_last _ _ (by simp)]
      have hops : (Regex.Concat (foldConcat (m :: ms)) v).concatOps
          = (foldConcat (m :: ms)).concatOps ++ [v] := rfl
      rw [hops, ih (fun x hx => hall x (List.mem_append_left [v] hx)) (by simp)]

lemma isCanonical_foldConcat : ∀ L : List Regex,
    (∀ x ∈ L, isCanonical x = true ∧ x.isConcatNode = false ∧
      x ≠ .EmptySet ∧ x ≠ .EmptyString) →
    L ≠ [] →
    isCanonical (foldConcat L) = true ∧ foldConcat L ≠ .EmptySet ∧
      foldConcat L ≠ .EmptyString := by
  intro L
  induction L using List.reverseRecOn with
  | nil => intro _ h; exact absurd rfl h
  | append_singleton M v ih =>
    intro hall _
    obtain ⟨hc, hC, h0, hE⟩ := hall v (by simp)
    cases M with
    | nil => exact ⟨hc, h0, hE⟩
    | cons m ms =>
      have hMne : (m :: ms : List Regex) ≠ [] := by simp
      obtain ⟨ihc, ih0, ihE⟩ :=
        ih (fun x hx => hall x (List.mem_append_left [v] hx)) hMne
      rw [foldConcat_append_last _ _ hMne]
      refine ⟨?_, fun h' => Regex.noConfusion h', fun h' => Regex.noConfusion h'⟩
      rw [canon_concat_iff]
      exact ⟨ihc, hc, ih0, ihE, h0, hE, hC⟩

lemma ASC.concat_fallthrough {l r : Regex} (hl0 : l ≠ .EmptySet)
    (hr0 : r ≠ .EmptySet) (hlE : l ≠ .EmptyString) (hrE : r ≠ .EmptyString) :
    ASC.concat l r = foldConcat (l.concatOps ++ r.concatOps) := by
  unfold ASC.concat
  rw [if_neg (by tauto), if_neg hlE, if_neg hrE]

lemma ASC.concat_canonical {l r : Regex}
    (hl : isCanonical l = true) (hr : isCanonical r = true)
    (hl0 : l ≠ .EmptySet) (hr0 : r ≠ .EmptySet)
    (hlE : l ≠ .EmptyString) (hrE : r ≠ .EmptyString) :
    isCanonical (ASC.concat l r) = true ∧ ASC.concat l r ≠ .EmptySet ∧
      ASC.concat l r ≠ .EmptyString := by
  have hconds : ∀ x ∈ l.concatOps ++ r.concatOps,
      isCanonical x = true ∧ x.isConcatNode = false ∧
        x ≠ .EmptySet ∧ x ≠ .EmptyString := by
    intro x hx
    rw [List.mem_append] at hx
    rcases hx with hx | hx
    · exact concatOps_conds l hl hl0 hlE x hx
    · exact concatOps_conds r hr hr0 hrE x hx
  rw [ASC.concat_fallthrough hl0 hr0 hlE hrE]
  exact isCanonical_foldConcat _ hconds (by simp [concatOps_ne_nil])

/-! ## The builder operations preserve canonicity -/

lemma isCanonical_ASC_closure {i : Regex} (h : isCanonical i = true) :
    isCanonical (ASC.closure i) = true := by
  cases i with
  | EmptySet => rfl
  | EmptyString => rfl
  | Closure x => exact h
  | Symbol s => rfl
  | Concat l v =>
    rw [show ASC.closure (.Concat l v) = .Closure (.Concat l v) from rfl,
        canon_closure_iff]
    exact ⟨h, fun h' => Regex.noConfusion h', fun h' => Regex.noConfusion h', rfl⟩
  | Or l v =>
    rw [show ASC.closure (.Or l v) = .Closure (.Or l v) from rfl,
        canon_closure_iff]
    exact ⟨h, fun h' => Regex.noConfusion h', fun h' => Regex.noConfusion h', rfl⟩
  | And l v =>
    rw [show ASC.closure (.And l v) = .Closure (.And l v) from rfl,
        canon_closure_iff]
    exact ⟨h, fun h' => Regex.noConfusion h', fun h' => Regex.noConfusion h', rfl⟩
  | Complement x =>
    rw [show ASC.closure (.Complement x) = .Closure (.Complement x) from rfl,
        canon_closure_iff]
    exact ⟨h, fun h' => Regex.noConfusion h', fun h' => Regex.noConfusion h', rfl⟩

lemma isCanonical_ASC_complement {i : Regex} (h : isCanonical i = true) :
    isCanonical (ASC.complement i) = true := by
  cases i with
  | Complement x => exact (canon_complement_iff.mp h).1
  | EmptySet => rfl
  | EmptyString => rfl
  | Symbol s => rfl
  | Concat l v =>
    rw [show ASC.complement (.Concat l v) = .Complement (.Concat l v) from rfl,
        canon_complement_iff]
    exact ⟨h, rfl⟩
  | Closure x =>
    rw [show ASC.complement (.Closure x) = .Complement (.Closure x) from rfl,
        canon_complement_iff]
    exact ⟨h, rfl⟩
  | Or l v =>
    rw [show ASC.complement (.Or l v) = .Complement (.Or l v) from rfl,
        canon_complement_iff]
    exact ⟨h, rfl⟩
  | And l v =>
    rw [show ASC.complement (.And l v) = .Complement (.And l v) from rfl,
        canon_complement_iff]
    exact ⟨h, rfl⟩

lemma isCanonical_ASC_or {l r : Regex} (hl : isCanonical l = true)
    (hr : isCanonical r = true) : isCanonical (ASC.or l r) = true := by
  by_cases hl0 : l = .EmptySet
  · subst hl0; rw [ASC.or_empty_left]; exact hr
  by_cases hr0 : r = .EmptySet
  · subst hr0; rw [ASC.or_empty_right]; exact hl
  by_cases hlc : l.isEmptySetComplement = true
  · rw [(isEmptySetComplement_iff l).mp hlc, ASC.or_escompl_left]; rfl
  by_cases hrc : r.isEmptySetComplement = true
  · rw [(isEmptySetComplement_iff r).mp hrc, ASC.or_escompl_right]; rfl
  exact (ASC.or_canonical hl hr hl0 hr0 (by simpa using hlc)
    (by simpa using hrc)).1

lemma isCanonical_ASC_and {l r : Regex} (hl : isCanonical l = true)
    (hr : isCanonical r = true) : isCanonical (ASC.and l r) = true := by
  by_cases hl0 : l = .EmptySet
  · subst hl0; rw [ASC.and_empty_left]; rfl
  by_cases hr0 : r = .EmptySet
  · subst hr0; rw [ASC.and_empty_right]; rfl
  by_cases hlc : l.isEmptySetComplement = true
  · rw [(isEmptySetComplement_iff l).mp hlc, ASC.and_escompl_left]; exact hr
  by_cases hrc : r.isEmptySetComplement = true
  · rw [(isEmptySetComplement_iff r).mp hrc, ASC.and_escompl_right]; exact hl
  exact (ASC.and_canonical hl hr hl0 hr0 (by simpa using hlc)
    (by simpa using hrc)).1

lemma isCanonical_ASC_concat {l r : Regex} (hl : isCanonical l = true)
    (hr : isCanonical r = true) : isCanonical (ASC.concat l r) = true := by
  by_cases hl0 : l = .EmptySet
  · unfold ASC.concat; rw [if_pos (Or.inl hl0)]; rfl
  by_cases hr0 : r = .EmptySet
  · unfold ASC.concat; rw [if_pos (Or.inr hr0)]; rfl
  by_cases hlE : l = .EmptyString
  · subst hlE
    unfold ASC.concat
    rw [if_neg (by tauto), if_pos rfl]
    exact hr
  by_cases hrE : r = .EmptyString
  · subst hrE
    unfold ASC.concat
    rw [if_neg (by tauto), if_neg hlE, if_pos rfl]
    exact hl
  exact (ASC.concat_canonical hl hr hl0 hr0 hlE hrE).1

/-- Terms obtainable from the canonicalizing builder's eight operations. -/
inductive Built : Regex → Prop where
  | empty_set : Built ASC.empty_set
  | empty_string : Built ASC.empty_string
  | symbol (value : Nat) : Built (ASC.symbol value)
  | closure {i : Regex} : Built i → Built (ASC.closure i)
  | concat {l r : Regex} : Built l → Built r → Built (ASC.concat l r)
  | or {l r : Regex} : Built l → Built r → Built (ASC.or l r)
  | and {l r : Regex} : Built l → Built r → Built (ASC.and l r)
  | complement {i : Regex} : Built i → Built (ASC.complement i)

lemma isCanonical_of_built {t : Regex} (hb : Built t) : isCanonical t = true := by
  induction hb with
  | empty_set => rfl
  | empty_string => rfl
  | symbol _ => rfl
  | closure _ ih => exact isCanonical_ASC_closure ih
  | concat _ _ ihl ihr => exact isCanonical_ASC_concat ihl ihr
  | or _ _ ihl ihr => exact isCanonical_ASC_or ihl ihr
  | and _ _ ihl ihr => exact isCanonical_ASC_and ihl ihr
  | complement _ ih => exact isCanonical_ASC_complement ih

/-! ## Rebuilding (cloning) is the identity on canonical terms -/

lemma ASC.concat_canonical_id {l v : Regex}
    (h : isCanonical (.Concat l v) = true) : ASC.concat l v = .Concat l v := by
  obtain ⟨_, _, hl0, hlE, hv0, hvE, hvC⟩ := canon_concat_iff.mp h
  rw [ASC.concat_fallthrough hl0 hv0 hlE hvE, concatOps_single hvC,
      foldConcat_append_last _ _ (concatOps_ne_nil l), foldConcat_concatOps]

lemma ASC.or_canonical_id {l v : Regex}
    (h : isCanonical (.Or l v) = true) : ASC.or l v = .Or l v := by
  obtain ⟨_, _, hl0, hlc, hv0, hvc, hvOr, _⟩ := canon_or_iff.mp h
  rw [ASC.or_fallthrough hl0 hv0 hlc hvc]
  have hops : l.orOps ++ v.orOps = (Regex.Or l v).orOps := by
    rw [orOps_single hvOr]; rfl
  obtain ⟨hPW, _⟩ := orOps_pairwise_last _ h
  rw [hops, sortOps_sorted_eq (hPW.imp (fun h' => rle_of_rlt h')),
      dedupAdj_pairwise_eq hPW, foldOr_orOps]

lemma ASC.and_canonical_id {l v : Regex}
    (h : isCanonical (.And l v) = true) : ASC.and l v = .And l v := by
  obtain ⟨_, _, hl0, hlc, hv0, hvc, hvAnd, _⟩ := canon_and_iff.mp h
  rw [ASC.and_fallthrough hl0 hv0 hlc hvc]
  have hops : l.andOps ++ v.andOps = (Regex.And l v).andOps := by
    rw [andOps_single hvAnd]; rfl
  obtain ⟨hPW, _⟩ := andOps_pairwise_last _ h
  rw [hops, sortOps_sorted_eq (hPW.imp (fun h' => rle_of_rlt h')),
      dedupAdj_pairwise_eq hPW, foldAnd_andOps]

lemma ASC.closure_canonical_id {i : Regex}
    (h : isCanonical (.Closure i) = true) : ASC.closure i = .Closure i := by
  obtain ⟨_, h0, hE, hCl⟩ := canon_closure_iff.mp h
  cases i <;> first
    | rfl
    | exact absurd rfl h0
    | exact absurd rfl hE
    | exact absurd hCl (by simp [Regex.isClosureNode])

lemma ASC.complement_canonical_id {i : Regex}
    (h : isCanonical (.Complement i) = true) : ASC.complement i = .Complement i := by
  obtain ⟨_, hC⟩ := canon_complement_iff.mp h
  cases i <;> first
    | rfl
    | exact absurd hC (by simp [Regex.isComplementNode])

lemma rebuild_canonical_id : ∀ t : Regex, isCanonical t = true → t.rebuild = t
  | .EmptySet, _ => rfl
  | .EmptyString, _ => rfl
  | .Symbol _, _ => rfl
  | .Concat l v, h => by
    obtain ⟨hl, hv, _⟩ := canon_concat_iff.mp h
    rw [Regex.rebuild, rebuild_canonical_id l hl, rebuild_canonical_id v hv,
        ASC.concat_canonical_id h]
  | .Closure i, h => by
    obtain ⟨hi, _⟩ := canon_closure_iff.mp h
    rw [Regex.rebuild, rebuild_canonical_id i hi, ASC.closure_canonical_id h]
  | .Or l v, h => by
    obtain ⟨hl, hv, _⟩ := canon_or_iff.mp h
    rw [Regex.rebuild, rebuild_canonical_id l hl, rebuild_canonical_id v hv,
        ASC.or_canonical_id h]
  | .And l v, h => by
    obtain ⟨hl, hv, _⟩ := canon_and_iff.mp h
    rw [Regex.rebuild, rebuild_canonical_id l hl, rebuild_canonical_id v hv,
        ASC.and_canonical_id h]
  | .Complement i, h => by
    obtain ⟨hi, _⟩ := canon_complement_iff.mp h
    rw [Regex.rebuild, rebuild_canonical_id i hi, ASC.complement_canonical_id h]

/-- Every node of an Or/And/Concat chain built by the canonicalizing builder
nests on the left: the right child never repeats the parent's constructor. -/
def leftNested : Regex → Bool
  | .EmptySet => true
  | .EmptyString => true
  | .Symbol _ => true
  | .Concat l r => leftNested l && leftNested r && !r.isConcatNode
  | .Closure i => leftNested i
  | .Or l r => leftNested l && leftNested r && !r.isOrNode
  | .And l r => leftNested l && leftNested r && !r.isAndNode
  | .Complement i => leftNested i

lemma leftNested_of_canonical : ∀ t : Regex, isCanonical t = true →
    leftNested t = true
  | .EmptySet, _ => rfl
  | .EmptyString, _ => rfl
  | .Symbol _, _ => rfl
  | .Concat l v, h => by
    obtain ⟨hl, hv, _, _, _, _, hvC⟩ := canon_concat_iff.mp h
    simp [leftNested, leftNested_of_canonical l hl,
          leftNested_of_canonical v hv, hvC]
  | .Closure i, h =>
    leftNested_of_canonical i (canon_closure_iff.mp h).1
  | .Or l v, h => by
    obtain ⟨hl, hv, _, _, _, _, hvOr, _⟩ := canon_or_iff.mp h
    simp [leftNested, leftNested_of_canonical l hl,
          leftNested_of_canonical v hv, hvOr]
  | .And l v, h => by
    obtain ⟨hl, hv, _, _, _, _, hvAnd, _⟩ := canon_and_iff.mp h
    simp [leftNested, leftNested_of_canonical l hl,
          leftNested_of_canonical v hv, hvAnd]
  | .Complement i, h =>
    leftNested_of_canonical i (canon_complement_iff.mp h).1

lemma ASC.closure_closure (R : Regex) :
    ASC.closure (ASC.closure R) = ASC.closure R := by
  cases R <;> rfl

lemma complement_complement_canonical {R : Regex} (h : isCanonical R = true) :
    ASC.complement (ASC.complement R) = R := by
  cases R with
  | Complement i => exact ASC.complement_canonical_id h
  | EmptySet => rfl
  | EmptyString => rfl
  | Symbol _ => rfl
  | Concat _ _ => rfl
  | Closure _ => rfl
  | Or _ _ => rfl
  | And _ _ => rfl

/-! ## Claim theorems (canonical form) -/

/-- C3: for terms produced by the canonicalizing builder, the stated
syntactic identities hold after construction: `or(R,R) = R`,
`and(R, !∅) = R`, `or(R, !∅) = !∅`, `and(R, ∅) = ∅`,
`closure(closure R) = closure R`, `complement(complement R) = R`,
associativity of `or`, and commutativity of `or`. -/
theorem c3_canonical_form_stability :
    ∀ R A B C : Regex, Built R → Built A → Built B → Built C →
      ASC.or R R = R ∧
      ASC.and R (ASC.complement ASC.empty_set) = R ∧
      ASC.or R (ASC.complement ASC.empty_set) = ASC.complement ASC.empty_set ∧
      ASC.and R ASC.empty_set = ASC.empty_set ∧
      ASC.closure (ASC.closure R) = ASC.closure R ∧
      ASC.complement (ASC.complement R) = R ∧
      ASC.or A (ASC.or B C) = ASC.or (ASC.or A B) C ∧
      ASC.or A B = ASC.or B A := by
  intro R A B C hR hA hB hC
  have hRc := isCanonical_of_built hR
  exact ⟨ASC.or_idem hRc, ASC.and_escompl_right R, ASC.or_escompl_right R,
    ASC.and_empty_right R, ASC.closure_closure R,
    complement_complement_canonical hRc,
    ASC.or_assoc (isCanonical_of_built hA) (isCanonical_of_built hB)
      (isCanonical_of_built hC),
    ASC.or_comm A B⟩

/-- Witness for C3 at `R = symbol 1`, `A = symbol 1`, `B = symbol 2`,
`C = symbol 3`. -/
theorem c3_witness :
    ASC.or (ASC.symbol 1) (ASC.symbol 1) = ASC.symbol 1 ∧
    ASC.and (ASC.symbol 1) (ASC.complement ASC.empty_set) = ASC.symbol 1 ∧
    ASC.or (ASC.symbol 1) (ASC.complement ASC.empty_set)
      = ASC.complement ASC.empty_set ∧
    ASC.and (ASC.symbol 1) ASC.empty_set = ASC.empty_set ∧
    ASC.closure (ASC.closure (ASC.symbol 1)) = ASC.closure (ASC.symbol 1) ∧
    ASC.complement (ASC.complement (ASC.symbol 1)) = ASC.symbol 1 ∧
    ASC.or (ASC.symbol 1) (ASC.or (ASC.symbol 2) (ASC.symbol 3))
      = ASC.or (ASC.or (ASC.symbol 1) (ASC.symbol 2)) (ASC.symbol 3) ∧
    ASC.or (ASC.symbol 1) (ASC.symbol 2) = ASC.or (ASC.symbol 2) (ASC.symbol 1) :=
  c3_canonical_form_stability (ASC.symbol 1) (ASC.symbol 1) (ASC.symbol 2)
    (ASC.symbol 3) (Built.symbol 1) (Built.symbol 1) (Built.symbol 2)
    (Built.symbol 3)

/-- C4 counterexample: the canonicalizing builder re-folds flattened chains
left-associatively, not right-associatively.  `concat(1, concat(2, 3))`
comes out as `Concat(Concat(1, 2), 3)` — the nested `Concat` is the *left*
child — and likewise for `or`. -/
theorem c4_counterexample :
    ASC.concat (ASC.symbol 1) (ASC.concat (ASC.symbol 2) (ASC.symbol 3))
      = Regex.Concat (Regex.Concat (Regex.Symbol 1) (Regex.Symbol 2))
          (Regex.Symbol 3) ∧
    ASC.concat (ASC.symbol 1) (ASC.concat (ASC.symbol 2) (ASC.symbol 3))
      ≠ Regex.Concat (Regex.Symbol 1)
          (Regex.Concat (Regex.Symbol 2) (Regex.Symbol 3)) ∧
    ASC.or (ASC.symbol 1) (ASC.or (ASC.symbol 2) (ASC.symbol 3))
      = Regex.Or (Regex.Or (Regex.Symbol 1) (Regex.Symbol 2)) (Regex.Symbol 3) ∧
    ASC.or (ASC.symbol 1) (ASC.or (ASC.symbol 2) (ASC.symbol 3))
      ≠ Regex.Or (Regex.Symbol 1) (Regex.Or (Regex.Symbol 2) (Regex.Symbol 3)) :=
  ⟨by decide, by decide, by decide, by decide⟩

/-- C4 (amended): in the fall-through case `or` (and dually `and`) flattens
nested operands, sorts them by the term order, deduplicates and re-folds the
operand list *left*-associatively; `concat` flattens nested concatenations
into a left-to-right sequence and re-folds it *left*-associatively.  In every
constructed `Or`/`And`/`Concat` chain the nested same-constructor node is the
*left* child of its parent. -/
theorem c4_flatten_sort_refold :
    ∀ l r : Regex, Built l → Built r →
      (l ≠ .EmptySet → r ≠ .EmptySet → l.isEmptySetComplement = false →
        r.isEmptySetComplement = false →
        ASC.or l r = foldOr (dedupAdj (sortOps (l.orOps ++ r.orOps))) ∧
        ASC.and l r = foldAnd (dedupAdj (sortOps (l.andOps ++ r.andOps)))) ∧
      (l ≠ .EmptySet → r ≠ .EmptySet → l ≠ .EmptyString → r ≠ .EmptyString →
        ASC.concat l r = foldConcat (l.concatOps ++ r.concatOps)) ∧
      leftNested (ASC.or l r) = true ∧ leftNested (ASC.and l r) = true ∧
      leftNested (ASC.concat l r) = true := by
  intro l r hl hr
  have hlc := isCanonical_of_built hl
  have hrc := isCanonical_of_built hr
  refine ⟨?_, ?_, ?_, ?_, ?_⟩
  · intro h1 h2 h3 h4
    exact ⟨ASC.or_fallthrough h1 h2 h3 h4, ASC.and_fallthrough h1 h2 h3 h4⟩
  · intro h1 h2 h3 h4
    exact ASC.concat_fallthrough h1 h2 h3 h4
  · exact leftNested_of_canonical _ (isCanonical_ASC_or hlc hrc)
  · exact leftNested_of_canonical _ (isCanonical_ASC_and hlc hrc)
  · exact leftNested_of_canonical _ (isCanonical_ASC_concat hlc hrc)

/-- Witness for the amended C4 at `l = symbol 2`, `r = symbol 1`. -/
theorem c4_witness :
    ((ASC.symbol 2 : Regex) ≠ .EmptySet → (ASC.symbol 1 : Regex) ≠ .EmptySet →
      (ASC.symbol 2).isEmptySetComplement = false →
      (ASC.symbol 1).isEmptySetComplement = false →
      ASC.or (ASC.symbol 2) (ASC.symbol 1)
        = foldOr (dedupAdj (sortOps ((ASC.symbol 2).orOps ++ (ASC.symbol 1).orOps))) ∧
      ASC.and (ASC.symbol 2) (ASC.symbol 1)
        = foldAnd (dedupAdj (sortOps ((ASC.symbol 2).andOps ++ (ASC.symbol 1).andOps)))) ∧
    ((ASC.symbol 2 : Regex) ≠ .EmptySet → (ASC.symbol 1 : Regex) ≠ .EmptySet →
      (ASC.symbol 2 : Regex) ≠ .EmptyString → (ASC.symbol 1 : Regex) ≠ .EmptyString →
      ASC.concat (ASC.symbol 2) (ASC.symbol 1)
        = foldConcat ((ASC.symbol 2).concatOps ++ (ASC.symbol 1).concatOps)) ∧
    leftNested (ASC.or (ASC.symbol 2) (ASC.symbol 1)) = true ∧
    leftNested (ASC.and (ASC.symbol 2) (ASC.symbol 1)) = true ∧
    leftNested (ASC.concat (ASC.symbol 2) (ASC.symbol 1)) = true :=
  c4_flatten_sort_refold (ASC.symbol 2) (ASC.symbol 1) (Built.symbol 2)
    (Built.symbol 1)

/-- C10: rebuilding a term obtained from the canonicalizing-builder
operations through the same builder yields a structurally equal term; since
`Clone for Regex` is implemented as rebuild through the term's own builder,
cloning such a term never alters it. -/
theorem c10_clone_id_on_built :
    ∀ t : Regex, Built t → t.rebuild = t :=
  fun t hb => rebuild_canonical_id t (isCanonical_of_built hb)

/-- Witness for C10 at `t = or(symbol 1, symbol 2)`. -/
theorem c10_witness :
    (ASC.or (ASC.symbol 1) (ASC.symbol 2)).rebuild
      = ASC.or (ASC.symbol 1) (ASC.symbol 2) :=
  c10_clone_id_on_built (ASC.or (ASC.symbol 1) (ASC.symbol 2))
    (Built.or (Built.symbol 1) (Built.symbol 2))

/-! ## Index and lookup lemmas for the intern list and transition maps -/

lemma listPos_lt_length : ∀ (L : List Regex) (r : Regex), r ∈ L →
    listPos L r < L.length
  | [], _, h => absurd h (by simp)
  | a :: t, r, h => by
    rw [listPos]
    split_ifs with ha
    · simp
    · have : r ∈ t := by
        rcases List.mem_cons.mp h with h' | h'
        · exact absurd h'.symm ha
        · exact h'
      simpa using listPos_lt_length t r this

lemma get_listPos : ∀ (L : List Regex) (r : Regex), r ∈ L →
    L.get? (listPos L r) = some r
  | [], _, h => absurd h (by simp)
  | a :: t, r, h => by
    rw [listPos]
    split_ifs with ha
    · subst ha; rfl
    · have hmem : r ∈ t := by
        rcases List.mem_cons.mp h with h' | h'
        · exact absurd h'.symm ha
        · exact h'
      simpa using get_listPos t r hmem

lemma listPos_append : ∀ (L t : List Regex) (r : Regex), r ∈ L →
    listPos (L ++ t) r = listPos L r
  | [], _, _, h => absurd h (by simp)
  | a :: l, t, r, h => by
    rw [List.cons_append, listPos, listPos]
    split_ifs with ha
    · rfl
    · have hmem : r ∈ l := by
        rcases List.mem_cons.mp h with h' | h'
        · exact absurd h'.symm ha
        · exact h'
      rw [listPos_append l t r hmem]

lemma listPos_append_self : ∀ (L : List Regex) (r : Regex), r ∉ L →
    listPos (L ++ [r]) r = L.length
  | [], r, _ => by simp [listPos]
  | a :: l, r, h => by
    rw [List.cons_append, listPos]
    have ha : a ≠ r := fun h' => h (by simp [h'])
    rw [if_neg ha, listPos_append_self l r (fun h' => h (by simp [h']))]
    rfl

lemma listPos_grow {L L' : List Regex} (r : Regex) (h : L <+: L')
    (hmem : r ∈ L) : listPos L' r = listPos L r := by
  obtain ⟨t, ht⟩ := h
  rw [← ht, listPos_append L t r hmem]

lemma lookupSym_map_mem (f : Nat → Nat) : ∀ (syms : List Nat) (s : Nat),
    s ∈ syms → lookupSym (syms.map (fun u => (u, f u))) s = some (f s)
  | [], _, h => absurd h (by simp)
  | a :: t, s, h => by
    rw [List.map_cons, lookupSym]
    split_ifs with ha
    · subst ha; rfl
    · exact lookupSym_map_mem f t s (by
        rcases List.mem_cons.mp h with h' | h'
        · exact absurd h'.symm ha
        · exact h')

lemma lookupSym_map_not_mem (f : Nat → Nat) : ∀ (syms : List Nat) (s : Nat),
    s ∉ syms → lookupSym (syms.map (fun u => (u, f u))) s = none
  | [], _, _ => rfl
  | a :: t, s, h => by
    rw [List.map_cons, lookupSym]
    rw [if_neg (fun ha => h (by simp [ha]))]
    exact lookupSym_map_not_mem f t s (fun h' => h (by simp [h']))

lemma mem_dedupAdjNat : ∀ {l : List Nat} {x : Nat}, x ∈ dedupAdjNat l ↔ x ∈ l
  | [], _ => Iff.rfl
  | [a], _ => Iff.rfl
  | a :: b :: t, x => by
    rw [dedupAdjNat]
    split_ifs with h
    · subst h
      rw [mem_dedupAdjNat]
      simp
    · rw [List.mem_cons, mem_dedupAdjNat]
      simp

/-- Membership in the symbol iteration list is membership in the collected
symbol set. -/
lemma mem_symsList {r : Regex} {s : Nat} :
    s ∈ r.symsList ↔ s ∈ Regex.symbolSet r := by
  rw [Regex.symsList, mem_dedupAdjNat, List.mem_insertionSort,
      Regex.symbolSet, List.mem_toFinset]

/-! ## Derivatives depend only on how the class matches the regex's symbols,
and never introduce new symbols -/

/-- `derive_symbols` only inspects the class through `smatches` at symbols
that occur literally in the regex. -/
lemma derive_symbols_congr : ∀ (r : Regex) (σ₁ σ₂ : Symbols),
    (∀ t ∈ r.collect_symbols, σ₁.smatches t = σ₂.smatches t) →
    r.derive_symbols σ₁ = r.derive_symbols σ₂
  | .EmptySet, _, _, _ => rfl
  | .EmptyString, _, _, _ => rfl
  | .Symbol t, σ₁, σ₂, h => by
    rw [Regex.derive_symbols, Regex.derive_symbols, h t (by simp [Regex.collect_symbols])]
  | .Concat l r, σ₁, σ₂, h => by
    rw [Regex.derive_symbols, Regex.derive_symbols,
        derive_symbols_congr l σ₁ σ₂
          (fun t ht => h t (by simp [Regex.collect_symbols, ht])),
        derive_symbols_congr r σ₁ σ₂
          (fun t ht => h t (by simp [Regex.collect_symbols, ht]))]
  | .Closure i, σ₁, σ₂, h => by
    rw [Regex.derive_symbols, Regex.derive_symbols,
        derive_symbols_congr i σ₁ σ₂ (fun t ht => h t ht)]
  | .Or l r, σ₁, σ₂, h => by
    rw [Regex.derive_symbols, Regex.derive_symbols,
        derive_symbols_congr l σ₁ σ₂
          (fun t ht => h t (by simp [Regex.collect_symbols, ht])),
        derive_symbols_congr r σ₁ σ₂
          (fun t ht => h t (by simp [Regex.collect_symbols, ht]))]
  | .And l r, σ₁, σ₂, h => by
    rw [Regex.derive_symbols, Regex.derive_symbols,
        derive_symbols_congr l σ₁ σ₂
          (fun t ht => h t (by simp [Regex.collect_symbols, ht])),
        derive_symbols_congr r σ₁ σ₂
          (fun t ht => h t (by simp [Regex.collect_symbols, ht]))]
  | .Complement i, σ₁, σ₂, h => by
    rw [Regex.derive_symbols, Regex.derive_symbols,
        derive_symbols_congr i σ₁ σ₂ (fun t ht => h t ht)]

lemma mem_collect_foldConcat {t : Nat} : ∀ (xs : List Regex) (x : Regex),
    t ∈ (xs.foldl Regex.Concat x).collect_symbols ↔
      t ∈ x.collect_symbols ∨ ∃ y ∈ xs, t ∈ y.collect_symbols
  | [], x => by simp
  | a :: l, x => by
    rw [List.foldl_cons, mem_collect_foldConcat l (.Concat x a)]
    have : t ∈ (Regex.Concat x a).collect_symbols ↔
        t ∈ x.collect_symbols ∨ t ∈ a.collect_symbols := by
      simp [Regex.collect_symbols]
    rw [this]
    simp only [List.mem_cons]
    constructor
    · rintro ((h | h) | ⟨y, hy, h⟩)
      · exact Or.inl h
      · exact Or.inr ⟨a, Or.inl rfl, h⟩
      · exact Or.inr ⟨y, Or.inr hy, h⟩
    · rintro (h | ⟨y, (rfl | hy), h⟩)
      · exact Or.inl (Or.inl h)
      · exact Or.inl (Or.inr h)
      · exact Or.inr ⟨y, hy, h⟩

lemma mem_collect_concatOps {t : Nat} : ∀ r : Regex,
    (∃ x ∈ r.concatOps, t ∈ x.collect_symbols) ↔ t ∈ r.collect_symbols
  | .Concat l v => by
    have hops : (Regex.Concat l v).concatOps = l.concatOps ++ [v] := rfl
    rw [hops]
    have : t ∈ (Regex.Concat l v).collect_symbols ↔
        t ∈ l.collect_symbols ∨ t ∈ v.collect_symbols := by
      simp [Regex.collect_symbols]
    rw [this, ← mem_collect_concatOps l]
    constructor
    · rintro ⟨x, hx, h⟩
      rcases List.mem_append.mp hx with hx | hx
      · exact Or.inl ⟨x, hx, h⟩
      · rw [List.mem_singleton] at hx; subst hx; exact Or.inr h
    · rintro (⟨x, hx, h⟩ | h)
      · exact ⟨x, List.mem_append_left _ hx, h⟩
      · exact ⟨v, List.mem_append_right _ (by simp), h⟩
  | .EmptySet => by simp [Regex.concatOps]
  | .EmptyString => by simp [Regex.concatOps]
  | .Symbol _ => by simp [Regex.concatOps]
  | .Closure _ => by simp [Regex.concatOps]
  | .Or _ _ => by simp [Regex.concatOps]
  | .And _ _ => by simp [Regex.concatOps]
  | .Complement _ => by simp [Regex.concatOps]

lemma mem_collect_foldOr {t : Nat} : ∀ (xs : List Regex) (x : Regex),
    t ∈ (xs.foldl Regex.Or x).collect_symbols ↔
      t ∈ x.collect_symbols ∨ ∃ y ∈ xs, t ∈ y.collect_symbols
  | [], x => by simp
  | a :: l, x => by
    rw [List.foldl_cons, mem_collect_foldOr l (.Or x a)]
    have : t ∈ (Regex.Or x a).collect_symbols ↔
        t ∈ x.collect_symbols ∨ t ∈ a.collect_symbols := by
      simp [Regex.collect_symbols]
    rw [this]
    simp only [List.mem_cons]
    constructor
    · rintro ((h | h) | ⟨y, hy, h⟩)
      · exact Or.inl h
      · exact Or.inr ⟨a, Or.inl rfl, h⟩
      · exact Or.inr ⟨y, Or.inr hy, h⟩
    · rintro (h | ⟨y, (rfl | hy), h⟩)
      · exact Or.inl (Or.inl h)
      · exact Or.inl (Or.inr h)
      · exact Or.inr ⟨y, hy, h⟩

lemma mem_collect_orOps {t : Nat} : ∀ r : Regex,
    (∃ x ∈ r.orOps, t ∈ x.collect_symbols) ↔ t ∈ r.collect_symbols
  | .Or l v => by
    have hops : (Regex.Or l v).orOps = l.orOps ++ [v] := rfl
    rw [hops]
    have : t ∈ (Regex.Or l v).collect_symbols ↔
        t ∈ l.collect_symbols ∨ t ∈ v.collect_symbols := by
      simp [Regex.collect_symbols]
    rw [this, ← mem_collect_orOps l]
    constructor
    · rintro ⟨x, hx, h⟩
      rcases List.mem_append.mp hx with hx | hx
      · exact Or.inl ⟨x, hx, h⟩
      · rw [List.mem_singleton] at hx; subst hx; exact Or.inr h
    · rintro (⟨x, hx, h⟩ | h)
      · exact ⟨x, List.mem_append_left _ hx, h⟩
      · exact ⟨v, List.mem_append_right _ (by simp), h⟩
  | .EmptySet => by simp [Regex.orOps]
  | .EmptyString => by simp [Regex.orOps]
  | .Symbol _ => by simp [Regex.orOps]
  | .Closure _ => by simp [Regex.orOps]
  | .Concat _ _ => by simp [Regex.orOps]
  | .And _ _ => by simp [Regex.orOps]
  | .Complement _ => by simp [Regex.orOps]

lemma mem_collect_foldAnd {t : Nat} : ∀ (xs : List Regex) (x : Regex),
    t ∈ (xs.foldl Regex.And x).collect_symbols ↔
      t ∈ x.collect_symbols ∨ ∃ y ∈ xs, t ∈ y.collect_symbols
  | [], x => by simp
  | a :: l, x => by
    rw [List.foldl_cons, mem_collect_foldAnd l (.And x a)]
    have : t ∈ (Regex.And x a).collect_symbols ↔
        t ∈ x.collect_symbols ∨ t ∈ a.collect_symbols := by
      simp [Regex.collect_symbols]
    rw [this]
    simp only [List.mem_cons]
    constructor
    · rintro ((h | h) | ⟨y, hy, h⟩)
      · exact Or.inl h
      · exact Or.inr ⟨a, Or.inl rfl, h⟩
      · exact Or.inr ⟨y, Or.inr hy, h⟩
    · rintro (h | ⟨y, (rfl | hy), h⟩)
      · exact Or.inl (Or.inl h)
      · exact Or.inl (Or.inr h)
      · exact Or.inr ⟨y, hy, h⟩

lemma mem_collect_andOps {t : Nat} : ∀ r : Regex,
    (∃ x ∈ r.andOps, t ∈ x.collect_symbols) ↔ t ∈ r.collect_symbols
  | .And l v => by
    have hops : (Regex.And l v).andOps = l.andOps ++ [v] := rfl
    rw [hops]
    have : t ∈ (Regex.And l v).collect_symbols ↔
        t ∈ l.collect_symbols ∨ t ∈ v.collect_symbols := by
      simp [Regex.collect_symbols]
    rw [this, ← mem_collect_andOps l]
    constructor
    · rintro ⟨x, hx, h⟩
      rcases List.mem_append.mp hx with hx | hx
      · exact Or.inl ⟨x, hx, h⟩
      · rw [List.mem_singleton] at hx; subst hx; exact Or.inr h
    · rintro (⟨x, hx, h⟩ | h)
      · exact ⟨x, List.mem_append_left _ hx, h⟩
      · exact ⟨v, List.mem_append_right _ (by simp), h⟩
  | .EmptySet => by simp [Regex.andOps]
  | .EmptyString => by simp [Regex.andOps]
  | .Symbol _ => by simp [Regex.andOps]
  | .Closure _ => by simp [Regex.andOps]
  | .Concat _ _ => by simp [Regex.andOps]
  | .Or _ _ => by simp [Regex.andOps]
  | .Complement _ => by simp [Regex.andOps]

lemma collect_ASC_concat_subset {l r : Regex} {t : Nat}
    (h : t ∈ (ASC.concat l r).collect_symbols) :
    t ∈ l.collect_symbols ∨ t ∈ r.collect_symbols := by
  unfold ASC.concat at h
  split_ifs at h with h1 h2 h3
  · exact absurd h (by simp [ASC.empty_set, Regex.collect_symbols])
  · exact Or.inr h
  · exact Or.inl h
  · rcases hl : l.concatOps with _ | ⟨x, xs⟩
    · exact absurd hl (concatOps_ne_nil l)
    · rw [hl] at h
      rw [show (x :: xs) ++ r.concatOps = x :: (xs ++ r.concatOps) from rfl,
          show foldConcat (x :: (xs ++ r.concatOps))
            = (xs ++ r.concatOps).foldl Regex.Concat x from rfl,
          mem_collect_foldConcat] at h
      rcases h with h | ⟨z, hz, h⟩
      · exact Or.inl ((mem_collect_concatOps l).mp ⟨x, by rw [hl]; simp, h⟩)
      · rcases List.mem_append.mp hz with hz | hz
        · exact Or.inl ((mem_collect_concatOps l).mp ⟨z, by rw [hl]; simp [hz], h⟩)
        · exact Or.inr ((mem_collect_concatOps r).mp ⟨z, hz, h⟩)

lemma collect_ASC_or_subset {l r : Regex} {t : Nat}
    (h : t ∈ (ASC.or l r).collect_symbols) :
    t ∈ l.collect_symbols ∨ t ∈ r.collect_symbols := by
  unfold ASC.or at h
  split_ifs at h with h1 h2 h3 h4
  · exact Or.inr h
  · exact Or.inl h
  · exact absurd h (by simp [ASC.complement, ASC.empty_set, Regex.collect_symbols])
  · exact absurd h (by simp [ASC.complement, ASC.empty_set, Regex.collect_symbols])
  · rcases hD : dedupAdj (sortOps (l.orOps ++ r.orOps)) with _ | ⟨x, xs⟩
    · exact absurd h (by rw [hD]; simp [foldOr, Regex.collect_symbols])
    · rw [hD, show foldOr (x :: xs) = xs.foldl Regex.Or x from rfl,
          mem_collect_foldOr] at h
      have hmem : ∀ z : Regex, z ∈ x :: xs → z ∈ l.orOps ∨ z ∈ r.orOps := by
        intro z hz
        rw [← hD, mem_dedupAdj, mem_sortOps, List.mem_append] at hz
        exact hz
      rcases h with h | ⟨z, hz, h⟩
      · rcases hmem x (by simp) with hx | hx
        · exact Or.inl ((mem_collect_orOps l).mp ⟨x, hx, h⟩)
        · exact Or.inr ((mem_collect_orOps r).mp ⟨x, hx, h⟩)
      · rcases hmem z (by simp [hz]) with hx | hx
        · exact Or.inl ((mem_collect_orOps l).mp ⟨z, hx, h⟩)
        · exact Or.inr ((mem_collect_orOps r).mp ⟨z, hx, h⟩)

lemma collect_ASC_and_subset {l r : Regex} {t : Nat}
    (h : t ∈ (ASC.and l r).collect_symbols) :
    t ∈ l.collect_symbols ∨ t ∈ r.collect_symbols := by
  unfold ASC.and at h
  split_ifs at h with h1 h2 h3
  · exact absurd h (by simp [ASC.empty_set, Regex.collect_symbols])
  · exact Or.inr h
  · exact Or.inl h
  · rcases hD : dedupAdj (sortOps (l.andOps ++ r.andOps)) with _ | ⟨x, xs⟩
    · exact absurd h (by rw [hD]; simp [foldAnd, Regex.collect_symbols])
    · rw [hD, show foldAnd (x :: xs) = xs.foldl Regex.And x from rfl,
          mem_collect_foldAnd] at h
      have hmem : ∀ z : Regex, z ∈ x :: xs → z ∈ l.andOps ∨ z ∈ r.andOps := by
        intro z hz
        rw [← hD, mem_dedupAdj, mem_sortOps, List.mem_append] at hz
        exact hz
      rcases h with h | ⟨z, hz, h⟩
      · rcases hmem x (by simp) with hx | hx
        · exact Or.inl ((mem_collect_andOps l).mp ⟨x, hx, h⟩)
        · exact Or.inr ((mem_collect_andOps r).mp ⟨x, hx, h⟩)
      · rcases hmem z (by simp [hz]) with hx | hx
        · exact Or.inl ((mem_collect_andOps l).mp ⟨z, hx, h⟩)
        · exact Or.inr ((mem_collect_andOps r).mp ⟨z, hx, h⟩)

lemma collect_ASC_closure_subset {i : Regex} {t : Nat}
    (h : t ∈ (ASC.closure i).collect_symbols) : t ∈ i.collect_symbols := by
  cases i <;> simpa [ASC.closure, Regex.collect_symbols] using h

lemma collect_ASC_complement_subset {i : Regex} {t : Nat}
    (h : t ∈ (ASC.complement i).collect_symbols) : t ∈ i.collect_symbols := by
  cases i <;> simpa [ASC.complement, Regex.collect_symbols] using h

lemma collect_rebuild_subset : ∀ (r : Regex) {t : Nat},
    t ∈ r.rebuild.collect_symbols → t ∈ r.collect_symbols
  | .EmptySet, _, h => h
  | .EmptyString, _, h => h
  | .Symbol _, _, h => h
  | .Concat l v, t, h => by
    rcases collect_ASC_concat_subset h with h' | h'
    · exact List.mem_append_left _ (collect_rebuild_subset l h')
    · exact List.mem_append_right _ (collect_rebuild_subset v h')
  | .Closure i, t, h =>
    collect_rebuild_subset i (collect_ASC_closure_subset h)
  | .Or l v, t, h => by
    rcases collect_ASC_or_subset h with h' | h'
    · exact List.mem_append_left _ (collect_rebuild_subset l h')
    · exact List.mem_append_right _ (collect_rebuild_subset v h')
  | .And l v, t, h => by
    rcases collect_ASC_and_subset h with h' | h'
    · exact List.mem_append_left _ (collect_rebuild_subset l h')
    · exact List.mem_append_right _ (collect_rebuild_subset v h')
  | .Complement i, t, h =>
    collect_rebuild_subset i (collect_ASC_complement_subset h)

lemma collect_nullable {r : Regex} {t : Nat}
    (h : t ∈ r.nullable.collect_symbols) : False := by
  unfold Regex.nullable at h
  split_ifs at h <;> simp [Regex.collect_symbols] at h

/-- Derivatives never introduce symbols that do not occur in the regex. -/
lemma collect_derive_subset : ∀ (r : Regex) (σ : Symbols) {t : Nat},
    t ∈ (r.derive_symbols σ).collect_symbols → t ∈ r.collect_symbols
  | .EmptySet, _, _, h => h
  | .EmptyString, _, _, h => h
  | .Symbol s, σ, t, h => by
    rw [Regex.derive_symbols] at h
    split_ifs at h <;>
      simp [ASC.empty_set, ASC.empty_string, Regex.collect_symbols] at h
  | .Concat l v, σ, t, h => by
    rw [Regex.derive_symbols] at h
    rcases collect_ASC_or_subset h with h' | h' <;>
      rcases collect_ASC_concat_subset h' with h'' | h''
    · exact List.mem_append_left _ (collect_derive_subset l σ h'')
    · exact List.mem_append_right _ (collect_rebuild_subset v h'')
    · exact absurd h'' collect_nullable
    · exact List.mem_append_right _ (collect_derive_subset v σ h'')
  | .Closure i, σ, t, h => by
    rw [Regex.derive_symbols] at h
    rcases collect_ASC_concat_subset h with h' | h'
    · exact collect_derive_subset i σ h'
    · exact collect_rebuild_subset i (collect_ASC_closure_subset h')
  | .Or l v, σ, t, h => by
    rw [Regex.derive_symbols] at h
    rcases collect_ASC_or_subset h with h' | h'
    · exact List.mem_append_left _ (collect_derive_subset l σ h')
    · exact List.mem_append_right _ (collect_derive_subset v σ h')
  | .And l v, σ, t, h => by
    rw [Regex.derive_symbols] at h
    rcases collect_ASC_and_subset h with h' | h'
    · exact List.mem_append_left _ (collect_derive_subset l σ h')
    · exact List.mem_append_right _ (collect_derive_subset v σ h')
  | .Complement i, σ, t, h => by
    rw [Regex.derive_symbols] at h
    exact collect_derive_subset i σ (collect_ASC_complement_subset h)

/-! ## The worklist invariant of `to_automaton` -/

/-- The invariant of an emitted state w.r.t. the intern list `rs`: the
accepting flag is the regex's nullability, the transitions map each iterated
symbol to the interned index of the corresponding single-symbol derivative,
and the default transition is the interned index of the derivative by the
default class. -/
def stateInv (syms : List Nat) (dflt : Symbols) (rs : List Regex)
    (st : FAState) : Prop :=
  st.accepting = st.regex.is_nullable ∧
  st.transitions = syms.map
    (fun s => (s, listPos rs (st.regex.derive_symbols (Symbols.Include {s})))) ∧
  (∀ s ∈ syms, st.regex.derive_symbols (Symbols.Include {s}) ∈ rs) ∧
  st.default_transition = listPos rs (st.regex.derive_symbols dflt) ∧
  st.regex.derive_symbols dflt ∈ rs

lemma stateInv_mono {syms : List Nat} {dflt : Symbols} {rs rs' : List Regex}
    {st : FAState} (h : stateInv syms dflt rs st) (hpre : rs <+: rs') :
    stateInv syms dflt rs' st := by
  obtain ⟨h1, h2, h3, h4, h5⟩ := h
  refine ⟨h1, ?_, fun s hs => hpre.subset (h3 s hs), ?_,
    hpre.subset h5⟩
  · rw [h2]
    exact List.map_congr_left
      (fun s hs => by rw [listPos_grow _ hpre (h3 s hs)])
  · rw [h4, listPos_grow _ hpre h5]

lemma getOrInsert_spec (r : Regex) (q rs S : List Regex)
    (hrs : rs = S ++ q) (hnd : rs.Nodup) :
    (getOrInsert r q rs).2.2.Nodup ∧
    (getOrInsert r q rs).2.2 = S ++ (getOrInsert r q rs).2.1 ∧
    rs <+: (getOrInsert r q rs).2.2 ∧
    r ∈ (getOrInsert r q rs).2.2 ∧
    (getOrInsert r q rs).1 = listPos (getOrInsert r q rs).2.2 r ∧
    (∀ x ∈ (getOrInsert r q rs).2.2, x ∈ rs ∨ x = r) := by
  unfold getOrInsert
  split_ifs with h
  · exact ⟨hnd, hrs, List.prefix_refl _, h, rfl, fun x hx => Or.inl hx⟩
  · refine ⟨?_, by rw [hrs, List.append_assoc], ⟨[r], rfl⟩, by simp, ?_, ?_⟩
    · rw [List.nodup_append]
      exact ⟨hnd, List.nodup_singleton r, by simpa using fun hmem => h hmem⟩
    · exact (listPos_append_self rs r h).symm
    · intro x hx
      rcases List.mem_append.mp hx with hx | hx
      · exact Or.inl hx
      · exact Or.inr (by simpa using hx)

lemma mkTransitions_spec (regex : Regex) : ∀ (syms' : List Nat)
    (q rs S : List Regex), rs = S ++ q → rs.Nodup →
    (mkTransitions regex syms' q rs).2.2.Nodup ∧
    (mkTransitions regex syms' q rs).2.2 = S ++ (mkTransitions regex syms' q rs).2.1 ∧
    rs <+: (mkTransitions regex syms' q rs).2.2 ∧
    (∀ s ∈ syms',
      regex.derive_symbols (Symbols.Include {s}) ∈ (mkTransitions regex syms' q rs).2.2) ∧
    (mkTransitions regex syms' q rs).1 = syms'.map
      (fun s => (s, listPos (mkTransitions regex syms' q rs).2.2
        (regex.derive_symbols (Symbols.Include {s})))) ∧
    (∀ x ∈ (mkTransitions regex syms' q rs).2.2, x ∈ rs ∨
      ∃ s, x = regex.derive_symbols (Symbols.Include {s}))
  | [], q, rs, S, hrs, hnd =>
    ⟨hnd, hrs, List.prefix_refl _, by simp, by simp [mkTransitions],
     fun x hx => Or.inl hx⟩
  | symbol :: rest, q, rs, S, hrs, hnd => by
    obtain ⟨gnd, grs, gpre, gmem, gpos, gnew⟩ :=
      getOrInsert_spec (regex.derive_symbols (Symbols.Include {symbol})) q rs S hrs hnd
    obtain ⟨mnd, mrs, mpre, mmem, mts, mnew⟩ :=
      mkTransitions_spec regex rest
        (getOrInsert (regex.derive_symbols (Symbols.Include {symbol})) q rs).2.1
        (getOrInsert (regex.derive_symbols (Symbols.Include {symbol})) q rs).2.2
        S grs gnd
    rw [show mkTransitions regex (symbol :: rest) q rs
          = ((symbol,
              (getOrInsert (regex.derive_symbols (Symbols.Include {symbol})) q rs).1)
              :: (mkTransitions regex rest
                (getOrInsert (regex.derive_symbols (Symbols.Include {symbol})) q rs).2.1
                (getOrInsert (regex.derive_symbols (Symbols.Include {symbol})) q rs).2.2).1,
             (mkTransitions regex rest
                (getOrInsert (regex.derive_symbols (Symbols.Include {symbol})) q rs).2.1
                (getOrInsert (regex.derive_symbols (Symbols.Include {symbol})) q rs).2.2).2.1,
             (mkTransitions regex rest
                (getOrInsert (regex.derive_symbols (Symbols.Include {symbol})) q rs).2.1
                (getOrInsert (regex.derive_symbols (Symbols.Include {symbol})) q rs).2.2).2.2)
        from rfl]
    refine ⟨mnd, mrs, gpre.trans mpre, ?_, ?_, ?_⟩
    · intro s hs
      rcases List.mem_cons.mp hs with hs | hs
      · subst hs; exact mpre.subset gmem
      · exact mmem s hs
    · rw [List.map_cons]
      refine congrArg₂ _ ?_ mts
      rw [gpos, listPos_grow _ mpre gmem]
    · intro x hx
      rcases mnew x hx with hx' | hx'
      · rcases gnew x hx' with hx'' | hx''
        · exact Or.inl hx''
        · exact Or.inr ⟨symbol, hx''⟩
      · exact Or.inr hx'

lemma explore_spec (syms : List Nat) (dflt : Symbols) (S0 : Finset Nat) :
    ∀ (fuel : Nat) (queue rs : List Regex) (states result : List FAState),
    explore syms dflt fuel queue rs states = some result →
    rs = states.map (·.regex) ++ queue →
    rs.Nodup →
    (∀ st ∈ states, stateInv syms dflt rs st) →
    (∀ x ∈ rs, ∀ t ∈ x.collect_symbols, t ∈ S0) →
    (result.map (·.regex)).Nodup ∧
    rs <+: result.map (·.regex) ∧
    (∀ st ∈ result, stateInv syms dflt (result.map (·.regex)) st) ∧
    (∀ x ∈ result.map (·.regex), ∀ t ∈ x.collect_symbols, t ∈ S0)
  | fuel, [], rs, states, result, hexp, hrs, hnd, hinv, hsym => by
    rw [show explore syms dflt fuel [] rs states = some states from by
          cases fuel <;> rfl] at hexp
    obtain rfl : states = result := Option.some.inj hexp
    rw [List.append_nil] at hrs
    subst hrs
    exact ⟨hnd, List.prefix_refl _, hinv, hsym⟩
  | 0, r :: queue, rs, states, result, hexp, _, _, _, _ =>
    Option.noConfusion hexp
  | fuel + 1, regex :: queue, rs, states, result, hexp, hrs, hnd, hinv, hsym => by
    have hrs' : rs = (states.map (·.regex) ++ [regex]) ++ queue := by
      rw [hrs, List.append_assoc]
      rfl
    have hregmem : regex ∈ rs := by rw [hrs]; simp
    obtain ⟨mnd, mrs, mpre, mmem, mts, mnew⟩ :=
      mkTransitions_spec regex syms queue rs
        (states.map (·.regex) ++ [regex]) hrs' hnd
    obtain ⟨gnd, grs, gpre, gmem, gpos, gnew⟩ :=
      getOrInsert_spec (regex.derive_symbols dflt)
        (mkTransitions regex syms queue rs).2.1
        (mkTransitions regex syms queue rs).2.2
        (states.map (·.regex) ++ [regex]) mrs mnd
    rw [show explore syms dflt (fuel + 1) (regex :: queue) rs states
          = explore syms dflt fuel
              (getOrInsert (regex.derive_symbols dflt)
                (mkTransitions regex syms queue rs).2.1
                (mkTransitions regex syms queue rs).2.2).2.1
              (getOrInsert (regex.derive_symbols dflt)
                (mkTransitions regex syms queue rs).2.1
                (mkTransitions regex syms queue rs).2.2).2.2
              (states ++ [⟨regex, regex.is_nullable,
                (mkTransitions regex syms queue rs).1,
                (getOrInsert (regex.derive_symbols dflt)
                  (mkTransitions regex syms queue rs).2.1
                  (mkTransitions regex syms queue rs).2.2).1⟩])
        from rfl] at hexp
    have hmap : (states ++ [(⟨regex, regex.is_nullable,
        (mkTransitions regex syms queue rs).1,
        (getOrInsert (regex.derive_symbols dflt)
          (mkTransitions regex syms queue rs).2.1
          (mkTransitions regex syms queue rs).2.2).1⟩ : FAState)]).map (·.regex)
        = states.map (·.regex) ++ [regex] := by
      rw [List.map_append]
      rfl
    have hrspre : rs <+: (getOrInsert (regex.derive_symbols dflt)
        (mkTransitions regex syms queue rs).2.1
        (mkTransitions regex syms queue rs).2.2).2.2 := mpre.trans gpre
    have hinv' : ∀ st ∈ states ++ [(⟨regex, regex.is_nullable,
        (mkTransitions regex syms queue rs).1,
        (getOrInsert (regex.derive_symbols dflt)
          (mkTransitions regex syms queue rs).2.1
          (mkTransitions regex syms queue rs).2.2).1⟩ : FAState)],
        stateInv syms dflt (getOrInsert (regex.derive_symbols dflt)
          (mkTransitions regex syms queue rs).2.1
          (mkTransitions regex syms queue rs).2.2).2.2 st := by
      intro st hst
      rcases List.mem_append.mp hst with hst | hst
      · exact stateInv_mono (hinv st hst) hrspre
      · rw [List.mem_singleton] at hst
        subst hst
        refine ⟨rfl, ?_, ?_, gpos, gmem⟩
        · show (mkTransitions regex syms queue rs).1 = _
          rw [mts]
          exact List.map_congr_left (fun s hs => by
            rw [listPos_grow _ gpre (mmem s hs)])
        · intro s hs
          exact gpre.subset (mmem s hs)
    have hsym' : ∀ x ∈ (getOrInsert (regex.derive_symbols dflt)
        (mkTransitions regex syms queue rs).2.1
        (mkTransitions regex syms queue rs).2.2).2.2,
        ∀ t ∈ x.collect_symbols, t ∈ S0 := by
      intro x hx t ht
      rcases gnew x hx with hx' | hx'
      · rcases mnew x hx' with hx'' | hx''
        · exact hsym x hx'' t ht
        · obtain ⟨s, rfl⟩ := hx''
          exact hsym regex hregmem t (collect_derive_subset _ _ ht)
      · subst hx'
        exact hsym regex hregmem t (collect_derive_subset _ _ ht)
    obtain ⟨rnd, rpre, rinv, rsym⟩ :=
      explore_spec syms dflt S0 fuel
        (getOrInsert (regex.derive_symbols dflt)
          (mkTransitions regex syms queue rs).2.1
          (mkTransitions regex syms queue rs).2.2).2.1
        (getOrInsert (regex.derive_symbols dflt)
          (mkTransitions regex syms queue rs).2.1
          (mkTransitions regex syms queue rs).2.2).2.2
        (states ++ [⟨regex, regex.is_nullable,
          (mkTransitions regex syms queue rs).1,
          (getOrInsert (regex.derive_symbols dflt)
            (mkTransitions regex syms queue rs).2.1
            (mkTransitions regex syms queue rs).2.2).1⟩])
        result hexp (by rw [hmap]; exact grs) gnd hinv' hsym'
    exact ⟨rnd, hrspre.trans rpre, rinv, rsym⟩

/-! ## From the worklist invariant to the automaton's behaviour -/

lemma to_automaton_spec {R : Regex} {fuel : Nat} {fa : FiniteAutomaton}
    (h : R.to_automaton fuel = some fa) :
    (fa.states.map (·.regex)).Nodup ∧
    [R.rebuild] <+: fa.states.map (·.regex) ∧
    (∀ st ∈ fa.states,
      stateInv R.symsList (Symbols.Exclude (Regex.symbolSet R))
        (fa.states.map (·.regex)) st) ∧
    (∀ x ∈ fa.states.map (·.regex), ∀ t ∈ x.collect_symbols,
      t ∈ Regex.symbolSet R) := by
  rw [Regex.to_automaton, Option.map_eq_some'] at h
  obtain ⟨result, hexp, hfa⟩ := h
  obtain ⟨rnd, rpre, rinv, rsym⟩ :=
    explore_spec R.symsList (Symbols.Exclude (Regex.symbolSet R))
      (Regex.symbolSet R) fuel [R.rebuild] [R.rebuild] [] result hexp rfl
      (List.nodup_singleton _)
      (by simp)
      (by
        intro x hx t ht
        rw [List.mem_singleton] at hx
        subst hx
        rw [Regex.symbolSet, List.mem_toFinset]
        exact collect_rebuild_subset R ht)
  subst hfa
  exact ⟨rnd, rpre, rinv, rsym⟩

lemma listPos_head {r0 : Regex} {L : List Regex} (h : [r0] <+: L) :
    listPos L r0 = 0 := by
  obtain ⟨t, ht⟩ := h
  rw [← ht]
  rw [show [r0] ++ t = r0 :: t from rfl, listPos, if_pos rfl]

lemma fa_next_eq {fa : FiniteAutomaton} {i : Nat} {st : FAState} (s : Nat)
    (hst : fa.states.get? i = some st) :
    fa.next i s = (match lookupSym st.transitions s with
      | some t => t
      | none => st.default_transition) := by
  unfold FiniteAutomaton.next
  rw [hst]

lemma fa_accepting_eq {fa : FiniteAutomaton} {i : Nat} {st : FAState}
    (hst : fa.states.get? i = some st) :
    fa.is_accepting i = st.accepting := by
  unfold FiniteAutomaton.is_accepting
  rw [hst]

lemma automaton_next_state {R : Regex} {fuel : Nat} {fa : FiniteAutomaton}
    (h : R.to_automaton fuel = some fa) {d : Regex}
    (hd : d ∈ fa.states.map (·.regex)) (s : Nat) :
    fa.next (listPos (fa.states.map (·.regex)) d) s
      = listPos (fa.states.map (·.regex)) (d.derive s) ∧
    d.derive s ∈ fa.states.map (·.regex) := by
  obtain ⟨hnd, hpre, hinv, hsym⟩ := to_automaton_spec h
  have hget : (fa.states.map (·.regex)).get?
      (listPos (fa.states.map (·.regex)) d) = some d :=
    get_listPos _ _ hd
  rw [List.get?_map, Option.map_eq_some'] at hget
  obtain ⟨st, hst, hstr⟩ := hget
  have hstmem : st ∈ fa.states := List.get?_mem hst
  obtain ⟨hacc, hts, htsmem, hdf, hdfmem⟩ := hinv st hstmem
  rw [fa_next_eq s hst]
  by_cases hs : s ∈ Regex.symbolSet R
  · have hs' : s ∈ R.symsList := mem_symsList.mpr hs
    rw [hts, hstr,
        lookupSym_map_mem
          (fun u => listPos (fa.states.map (·.regex))
            (d.derive_symbols (Symbols.Include {u}))) _ _ hs']
    exact ⟨rfl, hstr ▸ htsmem s hs'⟩
  · have hs' : s ∉ R.symsList := fun hc => hs (mem_symsList.mp hc)
    rw [hts, hstr,
        lookupSym_map_not_mem
          (fun u => listPos (fa.states.map (·.regex))
            (d.derive_symbols (Symbols.Include {u}))) _ _ hs']
    have hbridge : d.derive_symbols (Symbols.Exclude (Regex.symbolSet R))
        = d.derive s := by
      refine derive_symbols_congr d _ _ ?_
      intro t ht
      have htS : t ∈ Regex.symbolSet R := hsym d hd t ht
      have hts' : t ≠ s := fun hc => hs (hc ▸ htS)
      simp [Symbols.smatches, htS, hts']
    rw [hdf, hstr, hbridge]
    exact ⟨rfl, hbridge ▸ (hstr ▸ hdfmem)⟩

lemma automaton_run {R : Regex} {fuel : Nat} {fa : FiniteAutomaton}
    (h : R.to_automaton fuel = some fa) :
    ∀ (w : List Nat) (d : Regex), d ∈ fa.states.map (·.regex) →
      w.foldl fa.next (listPos (fa.states.map (·.regex)) d)
        = listPos (fa.states.map (·.regex)) (w.foldl Regex.derive d) ∧
      w.foldl Regex.derive d ∈ fa.states.map (·.regex)
  | [], d, hd => ⟨rfl, hd⟩
  | s :: t, d, hd => by
    obtain ⟨h1, h2⟩ := automaton_next_state h hd s
    rw [List.foldl_cons, List.foldl_cons, h1]
    exact automaton_run h t (d.derive s) h2

lemma rebuild_mem_states {R : Regex} {fuel : Nat} {fa : FiniteAutomaton}
    (h : R.to_automaton fuel = some fa) :
    R.rebuild ∈ fa.states.map (·.regex) :=
  (to_automaton_spec h).2.1.subset (by simp)

lemma automaton_accepting_at {R : Regex} {fuel : Nat} {fa : FiniteAutomaton}
    (h : R.to_automaton fuel = some fa) {d : Regex}
    (hd : d ∈ fa.states.map (·.regex)) :
    fa.is_accepting (listPos (fa.states.map (·.regex)) d) = d.is_nullable := by
  obtain ⟨_, _, hinv, _⟩ := to_automaton_spec h
  have hget : (fa.states.map (·.regex)).get?
      (listPos (fa.states.map (·.regex)) d) = some d :=
    get_listPos _ _ hd
  rw [List.get?_map, Option.map_eq_some'] at hget
  obtain ⟨st, hst, hstr⟩ := hget
  rw [fa_accepting_eq hst, (hinv st (List.get?_mem hst)).1, hstr]

/-! ## Claim theorems (automaton) -/

/-- C1: for every regex `R` and word `w`, compiling `R` with `to_automaton`
(when the worklist terminates within the given fuel) and running a fresh
matcher from state 0 over `w` returns exactly `R.is_match w`. -/
theorem c1_dfa_matches_is_match (R : Regex) (fuel : Nat) (fa : FiniteAutomaton)
    (h : R.to_automaton fuel = some fa) (w : List Nat) :
    fa.next_iter w = R.is_match w := by
  obtain ⟨_, hpre, _, _⟩ := to_automaton_spec h
  have hr0 : R.rebuild ∈ fa.states.map (·.regex) := rebuild_mem_states h
  obtain ⟨hrun, hmem⟩ := automaton_run h w R.rebuild hr0
  rw [FiniteAutomaton.next_iter,
      show (0 : Nat) = listPos (fa.states.map (·.regex)) R.rebuild from
        (listPos_head hpre).symm,
      hrun, automaton_accepting_at h hmem]
  rfl

/-- Witness for C1: the automaton of `Symbol 1` agrees with `is_match` on
the word `[1]`. -/
theorem c1_witness :
    (((Regex.Symbol 1).to_automaton 5).getD ⟨[]⟩).next_iter [1]
      = (Regex.Symbol 1).is_match [1] :=
  c1_dfa_matches_is_match (Regex.Symbol 1) 5
    (((Regex.Symbol 1).to_automaton 5).getD ⟨[]⟩) (by decide) [1]

/-- C7: in every automaton produced by `to_automaton`, every state's
per-symbol transition keys are exactly the symbols occurring literally in
the source regex (the same for all states), and any other symbol misses the
map (and is hence handled by the default transition in `next`). -/
theorem c7_alphabet_coverage (R : Regex) (fuel : Nat) (fa : FiniteAutomaton)
    (h : R.to_automaton fuel = some fa) :
    ∀ st ∈ fa.states,
      (st.transitions.map Prod.fst).toFinset = Regex.symbolSet R ∧
      st.transitions.map Prod.fst = R.symsList ∧
      ∀ s, s ∉ Regex.symbolSet R → lookupSym st.transitions s = none := by
  obtain ⟨_, _, hinv, _⟩ := to_automaton_spec h
  intro st hst
  obtain ⟨_, hts, _, _, _⟩ := hinv st hst
  have hkeys : st.transitions.map Prod.fst = R.symsList := by
    rw [hts, List.map_map]
    exact List.map_id' _
  refine ⟨?_, hkeys, ?_⟩
  · rw [hkeys]
    ext s
    rw [List.mem_toFinset, mem_symsList]
  · intro s hs
    rw [hts]
    exact lookupSym_map_not_mem _ _ _ (fun hc => hs (mem_symsList.mp hc))

/-- Witness for C7 on the automaton of `Symbol 1` (state 0; symbol 2 is not
in the literal alphabet and misses the transition map). -/
theorem c7_witness :
    (((((Regex.Symbol 1).to_automaton 5).getD ⟨[]⟩).states.getD 0
        ⟨Regex.EmptySet, false, [], 0⟩).transitions.map Prod.fst).toFinset
      = Regex.symbolSet (Regex.Symbol 1) ∧
    ((((Regex.Symbol 1).to_automaton 5).getD ⟨[]⟩).states.getD 0
        ⟨Regex.EmptySet, false, [], 0⟩).transitions.map Prod.fst
      = (Regex.Symbol 1).symsList ∧
    lookupSym ((((Regex.Symbol 1).to_automaton 5).getD ⟨[]⟩).states.getD 0
        ⟨Regex.EmptySet, false, [], 0⟩).transitions 2 = none := by
  have h := c7_alphabet_coverage (Regex.Symbol 1) 5
    (((Regex.Symbol 1).to_automaton 5).getD ⟨[]⟩) (by decide)
    ((((Regex.Symbol 1).to_automaton 5).getD ⟨[]⟩).states.getD 0
      ⟨Regex.EmptySet, false, [], 0⟩) (by decide)
  exact ⟨h.1, h.2.1, h.2.2 2 (by decide)⟩

/-- C8: every transition target (per-symbol and default) of every state of a
produced automaton is a valid state index, and a matcher started at state 0
can never reach an out-of-bounds index whatever word it is fed. -/
theorem c8_transition_targets_valid (R : Regex) (fuel : Nat)
    (fa : FiniteAutomaton) (h : R.to_automaton fuel = some fa) :
    0 < fa.states.length ∧
    (∀ st ∈ fa.states, st.default_transition < fa.states.length ∧
      ∀ p ∈ st.transitions, p.2 < fa.states.length) ∧
    ∀ w : List Nat, w.foldl fa.next 0 < fa.states.length := by
  obtain ⟨_, hpre, hinv, _⟩ := to_automaton_spec h
  have hlen : (fa.states.map (·.regex)).length = fa.states.length :=
    List.length_map _ _
  refine ⟨?_, ?_, ?_⟩
  · have hle := hpre.length_le
    rw [hlen] at hle
    simpa using Nat.lt_of_lt_of_le (by simp) hle
  · intro st hst
    obtain ⟨_, hts, htsmem, hdf, hdfmem⟩ := hinv st hst
    constructor
    · rw [hdf, ← hlen]
      exact listPos_lt_length _ _ hdfmem
    · intro p hp
      rw [hts] at hp
      obtain ⟨s, hs, rfl⟩ := List.mem_map.mp hp
      rw [← hlen]
      exact listPos_lt_length _ _ (htsmem s hs)
  · intro w
    obtain ⟨hrun, hmem⟩ := automaton_run h w R.rebuild (rebuild_mem_states h)
    rw [show (0 : Nat) = listPos (fa.states.map (·.regex)) R.rebuild from
          (listPos_head hpre).symm,
        hrun, ← hlen]
    exact listPos_lt_length _ _ hmem

/-- Witness for C8 on the automaton of `Symbol 1`, running the word `[5]`. -/
theorem c8_witness :
    0 < (((Regex.Symbol 1).to_automaton 5).getD ⟨[]⟩).states.length ∧
    ([5] : List Nat).foldl (((Regex.Symbol 1).to_automaton 5).getD ⟨[]⟩).next 0
      < (((Regex.Symbol 1).to_automaton 5).getD ⟨[]⟩).states.length :=
  ⟨(c8_transition_targets_valid (Regex.Symbol 1) 5
      (((Regex.Symbol 1).to_automaton 5).getD ⟨[]⟩) (by decide)).1,
   (c8_transition_targets_valid (Regex.Symbol 1) 5
      (((Regex.Symbol 1).to_automaton 5).getD ⟨[]⟩) (by decide)).2.2 [5]⟩

/-- C9 counterexample: the symbol-free, canonically built regex
`concat(complement ε, complement ε)` compiles to an automaton with *three*
states (`¬ε·¬ε → ¬∅·¬ε → ¬∅`), refuting "exactly one or two states". -/
theorem c9_counterexample :
    (Regex.to_automaton
        (ASC.concat (ASC.complement ASC.empty_string)
          (ASC.complement ASC.empty_string)) 9).map
      (fun fa => fa.states.length) = some 3 ∧
    Regex.symbolSet
      (ASC.concat (ASC.complement ASC.empty_string)
        (ASC.complement ASC.empty_string)) = ∅ ∧
    (3 : Nat) ≠ 1 ∧ (3 : Nat) ≠ 2 :=
  ⟨by decide, by decide, by decide, by decide⟩

/-- C9 (amended): for a regex whose collected literal alphabet is empty,
`to_automaton` produces an automaton with at least one state whose every
state — in particular the initial one — has an empty per-symbol transition
map (only a default transition). -/
theorem c9_empty_alphabet (R : Regex) (fuel : Nat) (fa : FiniteAutomaton)
    (hS : Regex.symbolSet R = ∅) (h : R.to_automaton fuel = some fa) :
    0 < fa.states.length ∧ ∀ st ∈ fa.states, st.transitions = [] := by
  obtain ⟨_, hpre, hinv, _⟩ := to_automaton_spec h
  have hcol : R.collect_symbols = [] := (List.toFinset_eq_empty_iff _).mp hS
  have hsyms : R.symsList = [] := by
    rw [Regex.symsList, hcol]
    rfl
  refine ⟨?_, ?_⟩
  · have hle := hpre.length_le
    rw [List.length_map] at hle
    simpa using Nat.lt_of_lt_of_le (by simp) hle
  · intro st hst
    rw [(hinv st hst).2.1, hsyms]
    rfl

/-- Witness for the amended C9 on `R = ∅` (one state, no per-symbol
transitions). -/
theorem c9_witness :
    0 < ((Regex.to_automaton .EmptySet 2).getD ⟨[]⟩).states.length ∧
    (((Regex.to_automaton .EmptySet 2).getD ⟨[]⟩).states.getD 0
      ⟨Regex.EmptySet, false, [], 0⟩).transitions = [] := by
  have h := c9_empty_alphabet .EmptySet 2
    ((Regex.to_automaton .EmptySet 2).getD ⟨[]⟩) (by decide) (by decide)
  exact ⟨h.1, h.2 _ (by decide)⟩
